import Mathlib

/-!
Verification of the recovery-bench trace bookkeeping and replay
reconstruction logic: a shallow embedding of the Python sources
(`collect_traces.py`, `register_unsolved_tasks.py`, `hash_reorganize.py`,
`replay_agent.py`, `utils.py`) as executable Lean definitions, together
with theorems settling the specification's claims about them.
-/

/-! ## Python string primitives

Python strings are modelled as Lean `String`; the operations used by the
sources (`startswith`, `endswith`, substring containment `in`, slicing,
`split`) are modelled on the underlying character list. -/

/-- Python `s.startswith(p)`. -/
def pyStartsWith (s p : String) : Bool :=
  p.data.isPrefixOf s.data

/-- Python `s.endswith(p)`. -/
def pyEndsWith (s p : String) : Bool :=
  p.data.isSuffixOf s.data

/-- Substring containment on character lists: Python `needle in hay`. -/
def listHasSub (needle : List Char) : List Char → Bool
  | [] => needle.isEmpty
  | c :: rest => needle.isPrefixOf (c :: rest) || listHasSub needle rest

/-- Python `needle in hay` for strings. -/
def pyHasSub (hay needle : String) : Bool :=
  listHasSub needle.data hay.data

/-- Python `s[n:]` for a non-negative index. -/
def pyDropChars (s : String) (n : Nat) : String :=
  String.mk (s.data.drop n)

/-- Python `s[:n]` for a non-negative index. -/
def pyTakeChars (s : String) (n : Nat) : String :=
  String.mk (s.data.take n)

/-- Python `int(s)`: optional surrounding whitespace, an optional sign,
then a non-empty digit sequence in which single underscores may separate
digits.  Returns `none` when the literal is ill-formed. -/
def pyDigitsValue : List Char → Nat → Option Nat
  | [], acc => some acc
  | c :: rest, acc =>
    if c.isDigit then pyDigitsValue rest (acc * 10 + (c.toNat - 48))
    else if c = '_' then
      match rest with
      | [] => none
      | d :: _ => if d.isDigit then pyDigitsValue rest acc else none
    else none

/-- Digit-sequence parser for `pyParseInt`: requires a leading digit. -/
def pyParseDigits (cs : List Char) : Option Nat :=
  match cs with
  | [] => none
  | c :: _ => if c.isDigit then pyDigitsValue cs 0 else none

/-- Python `int(s)` as a partial function to `Int`. -/
def pyParseInt (s : String) : Option Int :=
  let cs := (s.data.dropWhile Char.isWhitespace).reverse
  let cs := (cs.dropWhile Char.isWhitespace).reverse
  match cs with
  | '+' :: rest => (pyParseDigits rest).map Int.ofNat
  | '-' :: rest => (pyParseDigits rest).map (fun n => -(Int.ofNat n))
  | _ => (pyParseDigits cs).map Int.ofNat

/-- Python `s.split(sep)` restricted to a single-character separator, as
used by `replay_agent.py` (`item.name.split("-")`). -/
def pySplitOn (s : String) (sep : Char) : List String :=
  (s.data.splitOn sep).map String.mk

/-- Python dict insertion `d[k] = v`: replaces the value of an existing
key in place (keeping the key's original position), otherwise appends the
binding at the end.  Models CPython's insertion-ordered `dict`. -/
def pyDictInsert {α : Type} (m : List (String × α)) (k : String) (v : α) :
    List (String × α) :=
  match m with
  | [] => [(k, v)]
  | (k0, v0) :: rest =>
    if k0 = k then (k0, v) :: rest else (k0, v0) :: pyDictInsert rest k v

/-- Python dict lookup `d.get(k)`. -/
def pyDictGet {α : Type} (m : List (String × α)) (k : String) : Option α :=
  match m with
  | [] => none
  | (k0, v0) :: rest => if k0 = k then some v0 else pyDictGet rest k

/-! ## SHA-256 (`hashlib.sha256`, modelled bit-faithfully on `Nat`)

`create_task_hash` in `utils.py` is
`hashlib.sha256(task_description.encode("utf-8")).hexdigest()[:8]`.
The digest is embedded as a pure function over byte lists, with 32-bit
words represented as naturals reduced modulo `2^32`. -/

def M32 : Nat := 4294967296

def add32 (a b : Nat) : Nat := (a + b) % M32

def rotr32 (n x : Nat) : Nat := ((x >>> n) ||| (x <<< (32 - n))) % M32

def not32 (x : Nat) : Nat := Nat.xor 4294967295 x

def sha256K : List Nat :=
  [1116352408, 1899447441, 3049323471, 3921009573,
   961987163, 1508970993, 2453635748, 2870763221,
   3624381080, 310598401, 607225278, 1426881987,
   1925078388, 2162078206, 2614888103, 3248222580,
   3835390401, 4022224774, 264347078, 604807628,
   770255983, 1249150122, 1555081692, 1996064986,
   2554220882, 2821834349, 2952996808, 3210313671,
   3336571891, 3584528711, 113926993, 338241895,
   666307205, 773529912, 1294757372, 1396182291,
   1695183700, 1986661051, 2177026350, 2456956037,
   2730485921, 2820302411, 3259730800, 3345764771,
   3516065817, 3600352804, 4094571909, 275423344,
   430227734, 506948616, 659060556, 883997877,
   958139571, 1322822218, 1537002063, 1747873779,
   1955562222, 2024104815, 2227730452, 2361852424,
   2428436474, 2756734187, 3204031479, 3329325298]

structure Hash8 where
  w0 : Nat
  w1 : Nat
  w2 : Nat
  w3 : Nat
  w4 : Nat
  w5 : Nat
  w6 : Nat
  w7 : Nat
deriving Repr, DecidableEq

def sha256Init : Hash8 :=
  ⟨1779033703, 3144134277, 1013904242, 2773480762,
   1359893119, 2600822924, 528734635, 1541459225⟩

/-- Pack bytes into big-endian 32-bit words. -/
def bytesToWords : List Nat → List Nat
  | b0 :: b1 :: b2 :: b3 :: rest =>
    (b0 * 16777216 + b1 * 65536 + b2 * 256 + b3) :: bytesToWords rest
  | _ => []

/-- One message-schedule extension step: appends `w[i]` for `i = ws.length`. -/
def schedStep (ws : List Nat) : List Nat :=
  let i := ws.length
  let w15 := ws.getD (i - 15) 0
  let w2 := ws.getD (i - 2) 0
  let s0 := Nat.xor (Nat.xor (rotr32 7 w15) (rotr32 18 w15)) (w15 >>> 3)
  let s1 := Nat.xor (Nat.xor (rotr32 17 w2) (rotr32 19 w2)) (w2 >>> 10)
  ws ++ [(ws.getD (i - 16) 0 + s0 + ws.getD (i - 7) 0 + s1) % M32]

/-- The 64-word message schedule of one chunk. -/
def sha256Schedule (chunk : List Nat) : List Nat :=
  Nat.rec (bytesToWords chunk) (fun _ ws => schedStep ws) 48

/-- One compression round, consuming a round constant and a schedule word. -/
def sha256Round (st : Hash8) (kw : Nat × Nat) : Hash8 :=
  let S1 := Nat.xor (Nat.xor (rotr32 6 st.w4) (rotr32 11 st.w4)) (rotr32 25 st.w4)
  let ch := Nat.xor (Nat.land st.w4 st.w5) (Nat.land (not32 st.w4) st.w6)
  let temp1 := (st.w7 + S1 + ch + kw.1 + kw.2) % M32
  let S0 := Nat.xor (Nat.xor (rotr32 2 st.w0) (rotr32 13 st.w0)) (rotr32 22 st.w0)
  let maj := Nat.xor (Nat.xor (Nat.land st.w0 st.w1) (Nat.land st.w0 st.w2))
    (Nat.land st.w1 st.w2)
  let temp2 := (S0 + maj) % M32
  ⟨(temp1 + temp2) % M32, st.w0, st.w1, st.w2,
   (st.w3 + temp1) % M32, st.w4, st.w5, st.w6⟩

/-- Compress one 64-byte chunk into the running hash value. -/
def sha256Compress (h : Hash8) (chunk : List Nat) : Hash8 :=
  let ws := sha256Schedule chunk
  let st := (sha256K.zip ws).foldl sha256Round h
  ⟨add32 h.w0 st.w0, add32 h.w1 st.w1, add32 h.w2 st.w2, add32 h.w3 st.w3,
   add32 h.w4 st.w4, add32 h.w5 st.w5, add32 h.w6 st.w6, add32 h.w7 st.w7⟩

/-- Split a byte list into 64-byte chunks (structural recursion on a fuel
bound; `fuel = l.length` always suffices since every step consumes at
least one element of a non-empty list). -/
def chunks64Go (fuel : Nat) (l : List Nat) : List (List Nat) :=
  match fuel, l with
  | _, [] => []
  | 0, _ => []
  | fuel + 1, l => l.take 64 :: chunks64Go fuel (l.drop 64)

/-- Split a byte list into 64-byte chunks. -/
def chunks64 (l : List Nat) : List (List Nat) :=
  chunks64Go l.length l

/-- SHA-256 message padding: `0x80`, zeros, then the 64-bit big-endian
bit length. -/
def sha256Pad (msg : List Nat) : List Nat :=
  let L := msg.length
  let k := (119 - L % 64) % 64
  let bitLen := (L * 8) % 18446744073709551616
  msg ++ [128] ++ List.replicate k 0 ++
    [(bitLen >>> 56) % 256, (bitLen >>> 48) % 256, (bitLen >>> 40) % 256,
     (bitLen >>> 32) % 256, (bitLen >>> 24) % 256, (bitLen >>> 16) % 256,
     (bitLen >>> 8) % 256, bitLen % 256]

/-- The SHA-256 digest of a byte list, as 32 bytes. -/
def sha256Digest (msg : List Nat) : List Nat :=
  let h := (chunks64 (sha256Pad msg)).foldl sha256Compress sha256Init
  [(h.w0 >>> 24) % 256, (h.w0 >>> 16) % 256, (h.w0 >>> 8) % 256, h.w0 % 256,
   (h.w1 >>> 24) % 256, (h.w1 >>> 16) % 256, (h.w1 >>> 8) % 256, h.w1 % 256,
   (h.w2 >>> 24) % 256, (h.w2 >>> 16) % 256, (h.w2 >>> 8) % 256, h.w2 % 256,
   (h.w3 >>> 24) % 256, (h.w3 >>> 16) % 256, (h.w3 >>> 8) % 256, h.w3 % 256,
   (h.w4 >>> 24) % 256, (h.w4 >>> 16) % 256, (h.w4 >>> 8) % 256, h.w4 % 256,
   (h.w5 >>> 24) % 256, (h.w5 >>> 16) % 256, (h.w5 >>> 8) % 256, h.w5 % 256,
   (h.w6 >>> 24) % 256, (h.w6 >>> 16) % 256, (h.w6 >>> 8) % 256, h.w6 % 256,
   (h.w7 >>> 24) % 256, (h.w7 >>> 16) % 256, (h.w7 >>> 8) % 256, h.w7 % 256]

/-- UTF-8 encoding of one Unicode scalar value (Python `str.encode`). -/
def utf8Bytes (c : Nat) : List Nat :=
  if c < 128 then [c]
  else if c < 2048 then [192 ||| (c >>> 6), 128 ||| (Nat.land c 63)]
  else if c < 65536 then
    [224 ||| (c >>> 12), 128 ||| (Nat.land (c >>> 6) 63), 128 ||| (Nat.land c 63)]
  else
    [240 ||| (c >>> 18), 128 ||| (Nat.land (c >>> 12) 63),
     128 ||| (Nat.land (c >>> 6) 63), 128 ||| (Nat.land c 63)]

/-- Python `s.encode("utf-8")`. -/
def utf8Encode (s : String) : List Nat :=
  s.data.flatMap (fun c => utf8Bytes c.toNat)

def hexDigits : List Char :=
  "0123456789abcdef".data

/-- One lowercase hexadecimal digit. -/
def hexChar (n : Nat) : Char := hexDigits.getD (n % 16) '0'

/-- Two lowercase hex digits of a byte (`%02x`). -/
def hexByte (b : Nat) : List Char := [hexChar (b / 16), hexChar b]

/-- Python `hashlib.sha256(bytes).hexdigest()`. -/
def sha256Hexdigest (msg : List Nat) : List Char :=
  (sha256Digest msg).flatMap hexByte

/-- `create_task_hash` from `utils.py`:
`hashlib.sha256(task_description.encode("utf-8")).hexdigest()[:8]`. -/
def create_task_hash (task_description : String) : String :=
  String.mk ((sha256Hexdigest (utf8Encode task_description)).take 8)

/-! ## Claim C9: properties of the task hasher -/

theorem flatMap_hexByte_length (l : List Nat) :
    (l.flatMap hexByte).length = 2 * l.length := by
  induction l with
  | nil => rfl
  | cons b t ih => simp [hexByte, ih]; ring

theorem sha256Digest_length (m : List Nat) : (sha256Digest m).length = 32 := rfl

theorem sha256Hexdigest_length (m : List Nat) : (sha256Hexdigest m).length = 64 := by
  unfold sha256Hexdigest
  rw [flatMap_hexByte_length, sha256Digest_length]

theorem hexChar_mem (n : Nat) : hexChar n ∈ hexDigits := by
  have h : n % 16 < hexDigits.length := Nat.mod_lt n (by decide)
  unfold hexChar
  rw [List.getD_eq_getElem hexDigits '0' h]
  exact List.getElem_mem h

theorem mem_hexByte (c : Char) (b : Nat) (h : c ∈ hexByte b) : c ∈ hexDigits := by
  simp [hexByte] at h
  rcases h with h | h <;> exact h ▸ hexChar_mem _

/-- Claim C9: for every instruction string, `create_task_hash` returns an
8-character string of lowercase hexadecimal characters; it is a total,
deterministic pure function, and equal instruction strings always yield
equal hashes. -/
theorem create_task_hash_spec (s t : String) :
    (create_task_hash s).length = 8 ∧
    (∀ c ∈ (create_task_hash s).data, c ∈ hexDigits) ∧
    create_task_hash s = create_task_hash s ∧
    (s = t → create_task_hash s = create_task_hash t) := by
  refine ⟨?_, ?_, rfl, fun h => h ▸ rfl⟩
  · show (String.mk ((sha256Hexdigest (utf8Encode s)).take 8)).length = 8
    rw [String.length_mk, List.length_take, sha256Hexdigest_length]
    rfl
  · intro c hc
    have hc' : c ∈ sha256Hexdigest (utf8Encode s) :=
      List.take_subset 8 _ hc
    rcases List.mem_flatMap.mp hc' with ⟨b, _, hb⟩
    exact mem_hexByte c b hb

/-- Witness for C9 at a concrete instruction string. -/
theorem create_task_hash_spec_witness :
    (create_task_hash "x").length = 8 ∧
    (∀ c ∈ (create_task_hash "x").data, c ∈ hexDigits) ∧
    create_task_hash "x" = create_task_hash "x" ∧
    ("x" = "x" → create_task_hash "x" = create_task_hash "x") :=
  create_task_hash_spec "x" "x"

/-! ## Logs-root filesystem model

A logs root (as walked by `find_task_info` and `get_unsolved_tasks`) is a
list of `os.listdir` entries.  Each candidate directory has children; a
child matching the `1-of-1` naming convention carries a `results.json`
(possibly missing or malformed) and an optional `agent-logs` directory
with some number of entries. -/

/-- Parse outcome of a JSON file on disk. -/
inductive JsonFile (α : Type) where
  | missing : JsonFile α
  | malformed : JsonFile α
  | parsed (val : α) : JsonFile α
deriving DecidableEq, Repr

/-- The fields of `results.json` read by the sources; each is optional
because the code accesses them with `.get` defaults or raw indexing. -/
structure ResultsJson where
  isResolvedField : Option Bool
  taskIdField : Option String
deriving DecidableEq, Repr

/-- A child of a candidate task directory. -/
structure TraceSub where
  name : String
  isDir : Bool
  results : JsonFile ResultsJson
  /-- `some n`: an `agent-logs` directory exists with `n` entries;
  `none`: no `agent-logs` directory. -/
  agentLogs : Option Nat
deriving DecidableEq, Repr

/-- One `os.listdir` entry of the logs root. -/
structure Candidate where
  name : String
  isDir : Bool
  children : List TraceSub
deriving DecidableEq, Repr

/-- The first-matching `1-of-1` children of a candidate:
`[d for d in task_path.iterdir() if d.is_dir() and "1-of-1" in d.name]`. -/
def matchingDirs (c : Candidate) : List TraceSub :=
  c.children.filter (fun d => d.isDir && pyHasSub d.name "1-of-1")

/-- One observation of a task, as produced by `find_task_info`:
`(task_dir_path, episode_count, is_resolved)` (the path is reduced to the
matched directory's name). -/
structure Obs where
  dir : String
  episodes : Nat
  resolved : Bool
deriving DecidableEq, Repr

/-- The body of the `find_task_info` loop (the revision in
`recovery-bench/utils.py`, which catches `JSONDecodeError` and
`FileNotFoundError`): skips non-directories, candidates without a
`1-of-1` match, and candidates with missing or malformed `results.json`;
otherwise stores `(target_dir, episode_count, is_resolved)` under the
authoritative task id. -/
def findTaskInfoStep (acc : List (String × Obs)) (c : Candidate) :
    List (String × Obs) :=
  if !c.isDir then acc
  else
    match matchingDirs c with
    | [] => acc
    | target :: _ =>
      match target.results with
      | .missing => acc
      | .malformed => acc
      | .parsed r =>
        let isResolved := r.isResolvedField.getD false
        let actualTaskId := r.taskIdField.getD c.name
        let episodeCount := target.agentLogs.getD 0
        pyDictInsert acc actualTaskId ⟨target.name, episodeCount, isResolved⟩

/-- `find_task_info` from `recovery-bench/utils.py`: mapping from task id
to `(task_dir_path, episode_count, is_resolved)`. -/
def find_task_info (logsDir : List Candidate) : List (String × Obs) :=
  logsDir.foldl findTaskInfoStep []

/-! ## Claim C8: the indexer skips missing/malformed `results.json` -/

theorem findTaskInfoStep_skips (acc : List (String × Obs)) (bad : Candidate)
    (target : TraceSub) (rest : List TraceSub)
    (hmatch : matchingDirs bad = target :: rest)
    (hres : target.results = .missing ∨ target.results = .malformed) :
    findTaskInfoStep acc bad = acc := by
  unfold findTaskInfoStep
  rcases hres with h | h <;>
    cases hd : bad.isDir <;> simp [hmatch, h]

/-- Claim C8: a candidate whose matched `1-of-1` directory has a missing
or malformed `results.json` is skipped silently — the indexer's output on
a listing containing it equals the output on the listing without it, so
the candidate contributes nothing and the remaining candidates are
indexed as usual. -/
theorem find_task_info_skips_bad_results
    (pre post : List Candidate) (bad : Candidate)
    (target : TraceSub) (rest : List TraceSub)
    (hmatch : matchingDirs bad = target :: rest)
    (hres : target.results = .missing ∨ target.results = .malformed) :
    find_task_info (pre ++ bad :: post) = find_task_info (pre ++ post) := by
  unfold find_task_info
  rw [List.foldl_append, List.foldl_append, List.foldl_cons,
    findTaskInfoStep_skips _ bad target rest hmatch hres]

/-- Witness for C8: a malformed-results candidate sandwiched between two
good candidates contributes nothing. -/
theorem find_task_info_skips_bad_results_witness :
    find_task_info
      [⟨"t1", true, [⟨"t1.1-of-1", true, .parsed ⟨some false, some "t1"⟩, some 3⟩]⟩,
       ⟨"t2", true, [⟨"t2.1-of-1", true, .malformed, some 5⟩]⟩,
       ⟨"t3", true, [⟨"t3.1-of-1", true, .parsed ⟨some true, some "t3"⟩, none⟩]⟩] =
    find_task_info
      [⟨"t1", true, [⟨"t1.1-of-1", true, .parsed ⟨some false, some "t1"⟩, some 3⟩]⟩,
       ⟨"t3", true, [⟨"t3.1-of-1", true, .parsed ⟨some true, some "t3"⟩, none⟩]⟩] :=
  find_task_info_skips_bad_results
    [⟨"t1", true, [⟨"t1.1-of-1", true, .parsed ⟨some false, some "t1"⟩, some 3⟩]⟩]
    [⟨"t3", true, [⟨"t3.1-of-1", true, .parsed ⟨some true, some "t3"⟩, none⟩]⟩]
    ⟨"t2", true, [⟨"t2.1-of-1", true, .malformed, some 5⟩]⟩
    ⟨"t2.1-of-1", true, .malformed, some 5⟩ [] (by decide) (Or.inr rfl)

/-! ## Trace collector selection (`collect_traces`)

`collect_traces` scans every logs root with `find_task_info`, groups the
observations by task id (a `defaultdict(list)` appending in scan order),
then per task filters to unresolved observations, takes the observation
with the most episodes (Python `max`: the first maximum encountered) and
drops it when below the minimum-episode threshold.  The copy phase then
materialises exactly the selected `(task_id, observation)` pairs. -/

/-- `all_task_info[task_id].append(obs)` on a `defaultdict(list)`. -/
def addObs (m : List (String × List Obs)) (k : String) (o : Obs) :
    List (String × List Obs) :=
  match m with
  | [] => [(k, [o])]
  | (k0, os) :: rest =>
    if k0 = k then (k0, os ++ [o]) :: rest else (k0, os) :: addObs rest k o

/-- Grouping of per-root indexer outputs by task id, in scan order. -/
def groupTaskInfo (roots : List (List (String × Obs))) :
    List (String × List Obs) :=
  roots.foldl (fun m root => root.foldl (fun m p => addObs m p.1 p.2) m) []

/-- Python `max(u :: us, key=lambda x: x.episodes)`: keeps the current
maximum and replaces it only on a strictly greater key, so the first
maximum encountered wins. -/
def pyMaxByEpisodes (b : Obs) (t : List Obs) : Obs :=
  t.foldl (fun best x => if best.episodes < x.episodes then x else best) b

/-- Maximum episode count of a list of observations. -/
def maxEp (l : List Obs) : Nat :=
  l.foldr (fun o acc => max o.episodes acc) 0

/-- Per-task selection of `collect_traces`: keep only unresolved
observations; if none remain, drop the task; otherwise pick the
most-episode version (first maximum) and drop it when below the
threshold. -/
def selectVersion (minEpisodes : Nat) (versions : List Obs) : Option Obs :=
  match versions.filter (fun o => !o.resolved) with
  | [] => none
  | u :: us =>
    let best := pyMaxByEpisodes u us
    if best.episodes < minEpisodes then none else some best

/-- The selection phase of `collect_traces` over the grouped
observations of all logs roots: the `(task_id, best_version)` pairs that
get copied to the output tree. -/
def collect_traces_select (roots : List (List (String × Obs)))
    (minEpisodes : Nat) : List (String × Obs) :=
  (groupTaskInfo roots).filterMap
    (fun p => (selectVersion minEpisodes p.2).map (fun b => (p.1, b)))

/-- All observations recorded for a task id across the input roots, in
scan order. -/
def obsOf (roots : List (List (String × Obs))) (id : String) : List Obs :=
  ((roots.flatten).filter (fun p => p.1 = id)).map Prod.snd

/-! ### First-maximum characterisation of Python `max` -/

theorem le_maxEp {o : Obs} {l : List Obs} (h : o ∈ l) : o.episodes ≤ maxEp l := by
  induction l with
  | nil => cases h
  | cons x t ih =>
    rw [List.mem_cons] at h
    rcases h with h | h
    · subst h
      show o.episodes ≤ max o.episodes (maxEp t)
      exact le_max_left _ _
    · show o.episodes ≤ max x.episodes (maxEp t)
      exact le_trans (ih h) (le_max_right _ _)

theorem pyMaxByEpisodes_of_le {b : Obs} {t : List Obs}
    (h : ∀ x ∈ t, x.episodes ≤ b.episodes) : pyMaxByEpisodes b t = b := by
  induction t with
  | nil => rfl
  | cons x t ih =>
    have hx : ¬ b.episodes < x.episodes := not_lt.mpr (h x (by simp))
    simp only [pyMaxByEpisodes, List.foldl_cons, if_neg hx]
    exact ih (fun y hy => h y (by simp [hy]))

theorem find?_maxEp_of_lt : ∀ {t : List Obs} {b : Obs},
    b.episodes < maxEp t →
    t.find? (fun o => o.episodes == maxEp t) = some (pyMaxByEpisodes b t) := by
  intro t
  induction t with
  | nil => intro b h; simp [maxEp] at h
  | cons x t ih =>
    intro b h
    have hmax : maxEp (x :: t) = max x.episodes (maxEp t) := rfl
    by_cases hx : maxEp t ≤ x.episodes
    · have hxe : maxEp (x :: t) = x.episodes := by rw [hmax]; omega
      have hbx : b.episodes < x.episodes := by rw [hxe] at h; exact h
      have hfind : (x :: t).find? (fun o => o.episodes == maxEp (x :: t)) = some x := by
        apply List.find?_cons_of_pos
        rw [hxe]
        exact beq_self_eq_true _
      rw [hfind]
      have hstay : pyMaxByEpisodes x t = x :=
        pyMaxByEpisodes_of_le (fun y hy => le_trans (le_maxEp hy) hx)
      have hbmax : pyMaxByEpisodes b (x :: t) = x := by
        unfold pyMaxByEpisodes at hstay ⊢
        rw [List.foldl_cons, if_pos hbx]
        exact hstay
      rw [hbmax]
    · push_neg at hx
      have hxe : maxEp (x :: t) = maxEp t := by rw [hmax]; omega
      rw [List.find?_cons_of_neg _ (by simp [hxe]; omega), hxe]
      by_cases hbx : b.episodes < x.episodes
      · have hrec := ih (b := x) hx
        unfold pyMaxByEpisodes at hrec ⊢
        rw [List.foldl_cons, if_pos hbx]
        exact hrec
      · have hb : b.episodes < maxEp t := by rw [hxe] at h; exact h
        have hrec := ih (b := b) hb
        unfold pyMaxByEpisodes at hrec ⊢
        rw [List.foldl_cons, if_neg hbx]
        exact hrec

theorem find?_maxEp_cons (u : Obs) (us : List Obs) :
    (u :: us).find? (fun o => o.episodes == maxEp (u :: us)) =
      some (pyMaxByEpisodes u us) := by
  have hmax : maxEp (u :: us) = max u.episodes (maxEp us) := rfl
  by_cases hu : maxEp us ≤ u.episodes
  · have hue : maxEp (u :: us) = u.episodes := by rw [hmax]; omega
    have hfind : (u :: us).find? (fun o => o.episodes == maxEp (u :: us)) = some u := by
      apply List.find?_cons_of_pos
      rw [hue]
      exact beq_self_eq_true _
    rw [hfind, pyMaxByEpisodes_of_le (fun y hy => le_trans (le_maxEp hy) hu)]
  · push_neg at hu
    have hue : maxEp (u :: us) = maxEp us := by rw [hmax]; omega
    rw [List.find?_cons_of_neg _ (by simp [hue]; omega), hue]
    exact find?_maxEp_of_lt hu

theorem pyMaxByEpisodes_episodes (u : Obs) (us : List Obs) :
    (pyMaxByEpisodes u us).episodes = maxEp (u :: us) := by
  have h := List.find?_some (find?_maxEp_cons u us)
  exact eq_of_beq h

/-! ### Grouping by task id -/

def keysOf {α : Type} (m : List (String × α)) : List String := m.map Prod.fst

theorem pyDictGet_addObs (m : List (String × List Obs)) (k k' : String) (o : Obs) :
    pyDictGet (addObs m k o) k' =
      if k' = k then some (((pyDictGet m k).getD []) ++ [o])
      else pyDictGet m k' := by
  induction m with
  | nil =>
    by_cases h : k = k'
    · subst h
      simp [addObs, pyDictGet]
    · have h' : ¬ k' = k := fun hh => h hh.symm
      simp [addObs, pyDictGet, h, h']
  | cons p rest ih =>
    obtain ⟨k0, os⟩ := p
    by_cases h0 : k0 = k
    · have hstep : addObs ((k0, os) :: rest) k o = (k0, os ++ [o]) :: rest := by
        simp [addObs, h0]
      rw [hstep]
      by_cases h1 : k' = k
      · have hk0' : k0 = k' := h0.trans h1.symm
        simp [pyDictGet, hk0', h1, h0]
      · have hk0' : ¬ k0 = k' := fun hh => h1 (hh.symm.trans h0)
        simp [pyDictGet, hk0', h1]
    · have hstep : addObs ((k0, os) :: rest) k o = (k0, os) :: addObs rest k o := by
        simp [addObs, h0]
      rw [hstep]
      by_cases h2 : k0 = k'
      · have hk' : ¬ k' = k := fun hh => h0 (h2.trans hh)
        simp [pyDictGet, h2, hk']
      · simp [pyDictGet, h2, ih, h0]

theorem pyDictGet_eq_none_iff {α : Type} (m : List (String × α)) (k : String) :
    pyDictGet m k = none ↔ k ∉ keysOf m := by
  induction m with
  | nil => simp [pyDictGet, keysOf]
  | cons p rest ih =>
    obtain ⟨k0, v0⟩ := p
    by_cases h : k0 = k
    · subst h
      simp [pyDictGet, keysOf]
    · have h' : ¬ k = k0 := fun hh => h hh.symm
      simp [pyDictGet, keysOf, h, h', ih]

theorem mem_of_pyDictGet {α : Type} {m : List (String × α)} {k : String} {v : α}
    (h : pyDictGet m k = some v) : (k, v) ∈ m := by
  induction m with
  | nil => simp [pyDictGet] at h
  | cons p rest ih =>
    obtain ⟨k0, v0⟩ := p
    by_cases h0 : k0 = k
    · subst h0
      simp [pyDictGet] at h
      simp [h]
    · simp [pyDictGet, h0] at h
      simp [ih h]

theorem pyDictGet_of_mem_nodup {α : Type} {m : List (String × α)} {k : String}
    {v : α} (hnd : (keysOf m).Nodup) (h : (k, v) ∈ m) :
    pyDictGet m k = some v := by
  induction m with
  | nil => cases h
  | cons p rest ih =>
    obtain ⟨k0, v0⟩ := p
    have hnd1 : k0 ∉ keysOf rest := by
      have := List.nodup_cons.mp hnd
      exact this.1
    have hnd2 : (keysOf rest).Nodup := (List.nodup_cons.mp hnd).2
    rw [List.mem_cons] at h
    rcases h with h | h
    · have h1 : k = k0 := congrArg Prod.fst h
      have h2 : v = v0 := congrArg Prod.snd h
      subst h1
      subst h2
      simp [pyDictGet]
    · have hk0 : ¬ k0 = k := by
        intro he
        apply hnd1
        rw [he]
        exact List.mem_map.mpr ⟨(k, v), h, rfl⟩
      simp [pyDictGet, hk0, ih hnd2 h]

theorem keysOf_addObs (m : List (String × List Obs)) (k : String) (o : Obs) :
    keysOf (addObs m k o) =
      if k ∈ keysOf m then keysOf m else keysOf m ++ [k] := by
  induction m with
  | nil => simp [addObs, keysOf]
  | cons p rest ih =>
    obtain ⟨k0, os⟩ := p
    by_cases h0 : k0 = k
    · subst h0
      simp [addObs, keysOf]
    · have h0' : ¬ k = k0 := fun hh => h0 hh.symm
      have hstep : addObs ((k0, os) :: rest) k o = (k0, os) :: addObs rest k o := by
        simp [addObs, h0]
      rw [hstep]
      show k0 :: keysOf (addObs rest k o) = _
      rw [ih]
      have hmem : (k ∈ keysOf ((k0, os) :: rest)) ↔ (k ∈ keysOf rest) := by
        simp [keysOf, h0']
      by_cases hk : k ∈ keysOf rest
      · rw [if_pos hk, if_pos (hmem.mpr hk)]
        rfl
      · rw [if_neg hk, if_neg (fun hh => hk (hmem.mp hh))]
        rfl

theorem nodup_keysOf_addObs {m : List (String × List Obs)} {k : String} {o : Obs}
    (h : (keysOf m).Nodup) : (keysOf (addObs m k o)).Nodup := by
  rw [keysOf_addObs]
  by_cases hk : k ∈ keysOf m <;> simp [hk, List.nodup_append, h]

/-- The inner fold of the grouping loop over a flat list of
`(task_id, observation)` pairs. -/
def groupFlat (flat : List (String × Obs)) (m : List (String × List Obs)) :
    List (String × List Obs) :=
  flat.foldl (fun m p => addObs m p.1 p.2) m

theorem groupFlat_append (a b : List (String × Obs)) (m : List (String × List Obs)) :
    groupFlat (a ++ b) m = groupFlat b (groupFlat a m) := by
  unfold groupFlat
  rw [List.foldl_append]

theorem groupTaskInfo_eq_groupFlat (roots : List (List (String × Obs))) :
    groupTaskInfo roots = groupFlat roots.flatten [] := by
  suffices h : ∀ init, roots.foldl (fun m root => groupFlat root m) init =
      groupFlat roots.flatten init by
    exact h []
  induction roots with
  | nil => intro init; rfl
  | cons r rs ih =>
    intro init
    rw [List.flatten_cons, groupFlat_append, List.foldl_cons]
    exact ih (groupFlat r init)

/-- Observations for `k` in a flat scan list, in order. -/
def occObs (flat : List (String × Obs)) (k : String) : List Obs :=
  (flat.filter (fun p => p.1 = k)).map Prod.snd

theorem obsOf_eq_occObs (roots : List (List (String × Obs))) (id : String) :
    obsOf roots id = occObs roots.flatten id := rfl

theorem pyDictGet_groupFlat (flat : List (String × Obs)) :
    ∀ (m : List (String × List Obs)) (k : String),
    pyDictGet (groupFlat flat m) k =
      if occObs flat k = [] then pyDictGet m k
      else some ((pyDictGet m k).getD [] ++ occObs flat k) := by
  induction flat with
  | nil => intro m k; simp [groupFlat, occObs]
  | cons p rest ih =>
    intro m k
    obtain ⟨k0, o⟩ := p
    have hstep : groupFlat ((k0, o) :: rest) m = groupFlat rest (addObs m k0 o) := rfl
    rw [hstep, ih (addObs m k0 o) k]
    by_cases hk : k0 = k
    · subst hk
      have hocc : occObs ((k0, o) :: rest) k0 = o :: occObs rest k0 := by
        simp [occObs]
      rw [hocc, pyDictGet_addObs]
      simp only [if_pos rfl]
      by_cases hrest : occObs rest k0 = [] <;> simp [hrest]
    · have hocc : occObs ((k0, o) :: rest) k = occObs rest k := by
        unfold occObs
        rw [List.filter_cons_of_neg (by simp [hk])]
      have hget : pyDictGet (addObs m k0 o) k = pyDictGet m k := by
        rw [pyDictGet_addObs, if_neg (fun hh => hk hh.symm)]
      rw [hocc, hget]

theorem nodup_keysOf_groupFlat (flat : List (String × Obs)) :
    ∀ (m : List (String × List Obs)), (keysOf m).Nodup →
    (keysOf (groupFlat flat m)).Nodup := by
  induction flat with
  | nil => intro m h; exact h
  | cons p rest ih =>
    intro m h
    exact ih (addObs m p.1 p.2) (nodup_keysOf_addObs h)

/-! ### Claim C1: what the collector selects -/

theorem selectVersion_eq_some (m : Nat) (vs : List Obs) (sel : Obs) :
    selectVersion m vs = some sel ↔
      (vs.filter (fun o => !o.resolved) ≠ [] ∧
       m ≤ maxEp (vs.filter (fun o => !o.resolved)) ∧
       (vs.filter (fun o => !o.resolved)).find?
         (fun o => o.episodes == maxEp (vs.filter (fun o => !o.resolved))) =
         some sel) := by
  unfold selectVersion
  cases hu : vs.filter (fun o => !o.resolved) with
  | nil => simp
  | cons u us =>
    have hbe := pyMaxByEpisodes_episodes u us
    rw [find?_maxEp_cons u us]
    by_cases hlt : (pyMaxByEpisodes u us).episodes < m
    · simp only [if_pos hlt]
      constructor
      · intro h
        cases h
      · rintro ⟨-, hm, -⟩
        exfalso
        rw [← hbe] at hm
        omega
    · simp only [if_neg hlt]
      constructor
      · intro h
        have hsel : pyMaxByEpisodes u us = sel := by
          injection h
        refine ⟨by simp, by rw [← hbe]; omega, by rw [hsel]⟩
      · rintro ⟨-, -, hf⟩
        exact hf

theorem mem_collect_traces_select (roots : List (List (String × Obs)))
    (m : Nat) (id : String) (sel : Obs) :
    (id, sel) ∈ collect_traces_select roots m ↔
      (obsOf roots id ≠ [] ∧ selectVersion m (obsOf roots id) = some sel) := by
  have hnd : (keysOf (groupTaskInfo roots)).Nodup := by
    rw [groupTaskInfo_eq_groupFlat]
    exact nodup_keysOf_groupFlat _ [] (by simp [keysOf])
  have hget : pyDictGet (groupTaskInfo roots) id =
      if occObs roots.flatten id = [] then none
      else some (occObs roots.flatten id) := by
    rw [groupTaskInfo_eq_groupFlat, pyDictGet_groupFlat]
    simp [pyDictGet]
  constructor
  · intro h
    unfold collect_traces_select at h
    rcases List.mem_filterMap.mp h with ⟨⟨k, vs⟩, hmem, hf⟩
    rcases Option.map_eq_some'.mp hf with ⟨b, hb, hkb⟩
    have hk : k = id := congrArg Prod.fst hkb
    have hbsel : b = sel := congrArg Prod.snd hkb
    rw [hk] at hmem
    rw [hbsel] at hb
    have hlook := pyDictGet_of_mem_nodup hnd hmem
    rw [hget] at hlook
    by_cases hocc : occObs roots.flatten id = []
    · rw [if_pos hocc] at hlook
      cases hlook
    · rw [if_neg hocc] at hlook
      have hvs : vs = occObs roots.flatten id := by
        injection hlook.symm
      rw [obsOf_eq_occObs]
      exact ⟨hocc, by rw [← hvs]; exact hb⟩
  · rintro ⟨hne, hsel⟩
    rw [obsOf_eq_occObs] at hne hsel
    have hlook : pyDictGet (groupTaskInfo roots) id =
        some (occObs roots.flatten id) := by
      rw [hget, if_neg hne]
    have hmem := mem_of_pyDictGet hlook
    unfold collect_traces_select
    apply List.mem_filterMap.mpr
    refine ⟨(id, occObs roots.flatten id), hmem, ?_⟩
    show (selectVersion m (occObs roots.flatten id)).map (fun b => (id, b)) =
      some (id, sel)
    rw [hsel]
    rfl

/-- Claim C1: a task id appears in the trace collector's output iff it
has at least one unresolved observation and the maximum episode count
among its unresolved observations meets the minimum threshold; the
selected observation is the first unresolved observation attaining that
maximum (in grouping/scan order); a task all of whose observations are
resolved never appears. -/
theorem collect_traces_select_spec (roots : List (List (String × Obs)))
    (m : Nat) (id : String) :
    ((∃ sel, (id, sel) ∈ collect_traces_select roots m) ↔
       ((obsOf roots id).filter (fun o => !o.resolved) ≠ [] ∧
        m ≤ maxEp ((obsOf roots id).filter (fun o => !o.resolved)))) ∧
    (∀ sel, (id, sel) ∈ collect_traces_select roots m →
       ((obsOf roots id).filter (fun o => !o.resolved)).find?
         (fun o => o.episodes ==
            maxEp ((obsOf roots id).filter (fun o => !o.resolved))) = some sel) ∧
    ((∀ o ∈ obsOf roots id, o.resolved = true) →
       ∀ sel, (id, sel) ∉ collect_traces_select roots m) := by
  have hfil : (obsOf roots id).filter (fun o => !o.resolved) ≠ [] →
      obsOf roots id ≠ [] := by
    intro h hc
    rw [hc] at h
    exact h rfl
  refine ⟨⟨?_, ?_⟩, ?_, ?_⟩
  · rintro ⟨sel, hsel⟩
    rcases (mem_collect_traces_select roots m id sel).mp hsel with ⟨-, hs⟩
    rcases (selectVersion_eq_some m _ sel).mp hs with ⟨h1, h2, -⟩
    exact ⟨h1, h2⟩
  · rintro ⟨h1, h2⟩
    cases hu : (obsOf roots id).filter (fun o => !o.resolved) with
    | nil => exact absurd hu h1
    | cons u us =>
      refine ⟨pyMaxByEpisodes u us, (mem_collect_traces_select roots m id _).mpr
        ⟨hfil h1, (selectVersion_eq_some m _ _).mpr ⟨h1, h2, ?_⟩⟩⟩
      rw [hu]
      exact find?_maxEp_cons u us
  · intro sel hsel
    rcases (mem_collect_traces_select roots m id sel).mp hsel with ⟨-, hs⟩
    exact ((selectVersion_eq_some m _ sel).mp hs).2.2
  · intro hall sel hsel
    rcases (mem_collect_traces_select roots m id sel).mp hsel with ⟨-, hs⟩
    have h1 := ((selectVersion_eq_some m _ sel).mp hs).1
    apply h1
    apply List.filter_eq_nil_iff.mpr
    intro o ho
    simp [hall o ho]

/-- Witness for C1: two roots observing task `t` with 5 and 8 unresolved
episodes and threshold 6 select the 8-episode version. -/
theorem collect_traces_select_spec_witness :
    (∃ sel, ("t", sel) ∈ collect_traces_select
      [[("t", ⟨"d1", 5, false⟩)], [("t", ⟨"d2", 8, false⟩)]] 6) ∧
    ("t", (⟨"d2", 8, false⟩ : Obs)) ∈ collect_traces_select
      [[("t", ⟨"d1", 5, false⟩)], [("t", ⟨"d2", 8, false⟩)]] 6 :=
  ⟨(collect_traces_select_spec
      [[("t", ⟨"d1", 5, false⟩)], [("t", ⟨"d2", 8, false⟩)]] 6 "t").1.mpr
        (by decide),
   by decide⟩

/-! ## Unsolved-task filter (`get_unsolved_tasks`,
`self-correction/register_unsolved_tasks.py`)

The loop reads `results.json` without a `try` guard (a missing or
malformed file, or a missing key, raises and aborts the whole call —
modelled as `Except.error`), skips resolved tasks, tasks without an
`agent-logs` directory, and tasks whose `agent-logs` entry count exceeds
`max_episodes_desired` when that threshold is given; otherwise it appends
`results["task_id"]`. -/

def getUnsolvedGo (thr : Option Nat) :
    List Candidate → List String → Except String (List String)
  | [], acc => .ok acc
  | c :: rest, acc =>
    if !c.isDir then getUnsolvedGo thr rest acc
    else
      match matchingDirs c with
      | [] => getUnsolvedGo thr rest acc
      | target :: _ =>
        match target.results with
        | .missing => .error "FileNotFoundError: results.json"
        | .malformed => .error "json.JSONDecodeError: results.json"
        | .parsed r =>
          match r.isResolvedField with
          | none => .error "KeyError: is_resolved"
          | some true => getUnsolvedGo thr rest acc
          | some false =>
            match target.agentLogs with
            | none => getUnsolvedGo thr rest acc
            | some count =>
              if (match thr with
                  | some t => decide (t < count)
                  | none => false)
              then getUnsolvedGo thr rest acc
              else
                match r.taskIdField with
                | none => .error "KeyError: task_id"
                | some tid => getUnsolvedGo thr rest (acc ++ [tid])

/-- `get_unsolved_tasks(logs_dir, max_episodes_desired)`. -/
def get_unsolved_tasks (logsDir : List Candidate)
    (maxEpisodesDesired : Option Nat) : Except String (List String) :=
  getUnsolvedGo maxEpisodesDesired logsDir []

/-- Boolean well-formedness of one candidate: if its first `1-of-1`
match exists, its `results.json` parses and has both accessed keys. -/
def candWf (c : Candidate) : Bool :=
  !c.isDir ||
    (match matchingDirs c with
     | [] => true
     | target :: _ =>
       match target.results with
       | .parsed r => r.isResolvedField.isSome && r.taskIdField.isSome
       | _ => false)

def rootWf (root : List Candidate) : Bool := root.all candWf

/-- Threshold stage of the selection rule:
`max_episodes_desired is not None and count > max_episodes_desired`
skips the task. -/
def selThr (thr : Option Nat) (count : Nat) (tid : String) : Option String :=
  match thr with
  | some t => if t < count then none else some tid
  | none => some tid

/-- `agent-logs` stage of the selection rule. -/
def selAgentLogs (thr : Option Nat) (agl : Option Nat) (tid : String) :
    Option String :=
  match agl with
  | none => none
  | some count => selThr thr count tid

/-- Resolution stage of the selection rule. -/
def selResolved (thr : Option Nat) (agl : Option Nat) :
    Option Bool → Option String → Option String
  | some false, some tid => selAgentLogs thr agl tid
  | _, _ => none

/-- The selection rule applied to a candidate's matched `1-of-1`
directory. -/
def selectorFromTarget (thr : Option Nat) (target : TraceSub) : Option String :=
  match target.results with
  | .parsed r => selResolved thr target.agentLogs r.isResolvedField r.taskIdField
  | _ => none

/-- The per-candidate selection rule of `get_unsolved_tasks` as a partial
map, for stating the iff below. -/
def unsolvedSelector (thr : Option Nat) (c : Candidate) : Option String :=
  if !c.isDir then none
  else
    match matchingDirs c with
    | [] => none
    | target :: _ => selectorFromTarget thr target

/-- The task id a target's parsed results carry, irrespective of the
selection conditions. -/
def parsedTaskIdOf (target : TraceSub) : Option String :=
  match target.results with
  | .parsed r => r.taskIdField
  | _ => none

/-- The task id a candidate's parsed results carry, irrespective of the
selection conditions. -/
def parsedTaskId (c : Candidate) : Option String :=
  if !c.isDir then none
  else
    match matchingDirs c with
    | [] => none
    | target :: _ => parsedTaskIdOf target

theorem unsolvedSelector_cons {thr : Option Nat} {c : Candidate}
    {target : TraceSub} {ds : List TraceSub}
    (hcd : c.isDir = true) (hm : matchingDirs c = target :: ds) :
    unsolvedSelector thr c = selectorFromTarget thr target := by
  unfold unsolvedSelector
  rw [hcd, hm]
  rfl

theorem parsedTaskId_cons {c : Candidate} {target : TraceSub}
    {ds : List TraceSub}
    (hcd : c.isDir = true) (hm : matchingDirs c = target :: ds) :
    parsedTaskId c = parsedTaskIdOf target := by
  unfold parsedTaskId
  rw [hcd, hm]
  rfl

theorem getUnsolvedGo_wf (thr : Option Nat) :
    ∀ (root : List Candidate) (acc : List String), rootWf root = true →
    getUnsolvedGo thr root acc =
      .ok (acc ++ root.filterMap (unsolvedSelector thr)) := by
  intro root
  induction root with
  | nil => intro acc _; simp [getUnsolvedGo]
  | cons c rest ih =>
    intro acc hwf
    have hwfc : candWf c = true := by
      have := List.all_eq_true.mp hwf
      exact this c (by simp)
    have hwfr : rootWf rest = true := by
      apply List.all_eq_true.mpr
      intro x hx
      exact List.all_eq_true.mp hwf x (by simp [hx])
    cases hcd : c.isDir with
    | false =>
      have h1 : getUnsolvedGo thr (c :: rest) acc = getUnsolvedGo thr rest acc := by
        simp [getUnsolvedGo, hcd]
      have h2 : unsolvedSelector thr c = none := by
        simp [unsolvedSelector, hcd]
      rw [h1, ih acc hwfr, List.filterMap_cons, h2]
    | true =>
      cases hm : matchingDirs c with
      | nil =>
        have h1 : getUnsolvedGo thr (c :: rest) acc = getUnsolvedGo thr rest acc := by
          simp [getUnsolvedGo, hcd, hm]
        have h2 : unsolvedSelector thr c = none := by
          simp [unsolvedSelector, hcd, hm]
        rw [h1, ih acc hwfr, List.filterMap_cons, h2]
      | cons target ds =>
        simp only [candWf, hcd, hm] at hwfc
        cases hr : target.results with
        | missing => rw [hr] at hwfc; simp at hwfc
        | malformed => rw [hr] at hwfc; simp at hwfc
        | parsed r =>
          rw [hr] at hwfc
          simp only [Bool.not_true, Bool.false_or, Bool.and_eq_true] at hwfc
          have hres : r.isResolvedField.isSome = true := hwfc.1
          have hid : r.taskIdField.isSome = true := hwfc.2
          rcases Option.isSome_iff_exists.mp hres with ⟨bres, hbres⟩
          rcases Option.isSome_iff_exists.mp hid with ⟨tid, htid⟩
          have hsel : unsolvedSelector thr c =
              selResolved thr target.agentLogs r.isResolvedField r.taskIdField := by
            rw [unsolvedSelector_cons hcd hm]
            unfold selectorFromTarget
            rw [hr]
          cases bres with
          | true =>
            have h1 : getUnsolvedGo thr (c :: rest) acc =
                getUnsolvedGo thr rest acc := by
              simp [getUnsolvedGo, hcd, hm, hr, hbres]
            have h2 : unsolvedSelector thr c = none := by
              rw [hsel, hbres]
              cases htid' : r.taskIdField <;> rfl
            rw [h1, ih acc hwfr, List.filterMap_cons, h2]
          | false =>
            cases hal : target.agentLogs with
            | none =>
              have h1 : getUnsolvedGo thr (c :: rest) acc =
                  getUnsolvedGo thr rest acc := by
                simp [getUnsolvedGo, hcd, hm, hr, hbres, hal]
              have h2 : unsolvedSelector thr c = none := by
                rw [hsel, hbres, htid, hal]
                rfl
              rw [h1, ih acc hwfr, List.filterMap_cons, h2]
            | some count =>
              cases hskip : (match thr with
                  | some t => decide (t < count)
                  | none => false) with
              | true =>
                have h1 : getUnsolvedGo thr (c :: rest) acc =
                    getUnsolvedGo thr rest acc := by
                  simp only [getUnsolvedGo, hcd, Bool.not_true,
                    Bool.false_eq_true, if_false, hm, hr, hbres, hal]
                  rw [if_pos hskip]
                have h2 : unsolvedSelector thr c = none := by
                  rw [hsel, hbres, htid, hal]
                  show selThr thr count tid = none
                  cases thr with
                  | none => simp at hskip
                  | some t =>
                    simp only at hskip
                    show (if t < count then none else some tid : Option String) = none
                    rw [if_pos (of_decide_eq_true hskip)]
                rw [h1, ih acc hwfr, List.filterMap_cons, h2]
              | false =>
                have h1 : getUnsolvedGo thr (c :: rest) acc =
                    getUnsolvedGo thr rest (acc ++ [tid]) := by
                  simp only [getUnsolvedGo, hcd, Bool.not_true,
                    Bool.false_eq_true, if_false, hm, hr, hbres, hal]
                  rw [if_neg (by rw [hskip]; exact Bool.false_ne_true), htid]
                have h2 : unsolvedSelector thr c = some tid := by
                  rw [hsel, hbres, htid, hal]
                  show selThr thr count tid = some tid
                  cases thr with
                  | none => rfl
                  | some t =>
                    simp only at hskip
                    show (if t < count then none else some tid : Option String) =
                      some tid
                    rw [if_neg (of_decide_eq_false hskip)]
                rw [h1, ih (acc ++ [tid]) hwfr, List.filterMap_cons, h2]
                simp

theorem filterMap_inj_of_nodup {α β : Type} {f : α → Option β} :
    ∀ {l : List α}, (l.filterMap f).Nodup →
    ∀ {a b : α} {x : β}, a ∈ l → b ∈ l → f a = some x → f b = some x → a = b := by
  intro l
  induction l with
  | nil => intro _ a b x ha; cases ha
  | cons h t ih =>
    intro hnd a b x ha hb hfa hfb
    rw [List.mem_cons] at ha hb
    cases hf : f h with
    | none =>
      have hnd' : (t.filterMap f).Nodup := by
        rw [List.filterMap_cons, hf] at hnd
        exact hnd
      rcases ha with ha | ha
      · rw [ha, hf] at hfa
        cases hfa
      · rcases hb with hb | hb
        · rw [hb, hf] at hfb
          cases hfb
        · exact ih hnd' ha hb hfa hfb
    | some y =>
      have hnd' : y ∉ t.filterMap f ∧ (t.filterMap f).Nodup := by
        rw [List.filterMap_cons, hf] at hnd
        exact ⟨(List.nodup_cons.mp hnd).1, (List.nodup_cons.mp hnd).2⟩
      rcases ha with ha | ha
      · rcases hb with hb | hb
        · rw [ha, hb]
        · exfalso
          rw [ha, hf] at hfa
          have hy : y = x := by injection hfa
          apply hnd'.1
          rw [hy]
          exact List.mem_filterMap.mpr ⟨b, hb, hfb⟩
      · rcases hb with hb | hb
        · exfalso
          rw [hb, hf] at hfb
          have hy : y = x := by injection hfb
          apply hnd'.1
          rw [hy]
          exact List.mem_filterMap.mpr ⟨a, ha, hfa⟩
        · exact ih hnd'.2 ha hb hfa hfb

theorem unsolvedSelector_parsedTaskId {thr : Option Nat} {c : Candidate}
    {tid : String} (h : unsolvedSelector thr c = some tid) :
    parsedTaskId c = some tid := by
  unfold unsolvedSelector at h
  unfold parsedTaskId
  cases hcd : c.isDir with
  | false => rw [hcd] at h; simp at h
  | true =>
    rw [hcd] at h
    simp only [Bool.not_true, Bool.false_eq_true, if_false] at h ⊢
    cases hm : matchingDirs c with
    | nil => rw [hm] at h; cases h
    | cons target ds =>
      rw [hm] at h
      replace h : selectorFromTarget thr target = some tid := h
      show parsedTaskIdOf target = some tid
      unfold selectorFromTarget at h
      unfold parsedTaskIdOf
      cases hr : target.results with
      | missing => rw [hr] at h; cases h
      | malformed => rw [hr] at h; cases h
      | parsed r =>
        rw [hr] at h
        replace h : selResolved thr target.agentLogs
            r.isResolvedField r.taskIdField = some tid := h
        show r.taskIdField = some tid
        cases hres : r.isResolvedField with
        | none =>
          rw [hres] at h
          cases htid0 : r.taskIdField <;> rw [htid0] at h <;> cases h
        | some b =>
          cases b with
          | true =>
            rw [hres] at h
            cases htid0 : r.taskIdField <;> rw [htid0] at h <;> cases h
          | false =>
            rw [hres] at h
            cases htid0 : r.taskIdField with
            | none => rw [htid0] at h; cases h
            | some tid0 =>
              rw [htid0] at h
              replace h : selAgentLogs thr target.agentLogs tid0 = some tid := h
              cases hal : target.agentLogs with
              | none => rw [hal] at h; cases h
              | some count =>
                rw [hal] at h
                replace h : selThr thr count tid0 = some tid := h
                cases thr with
                | none => exact h
                | some t =>
                  replace h : (if t < count then none else some tid0) = some tid := h
                  by_cases hlt : t < count
                  · rw [if_pos hlt] at h
                    cases h
                  · rw [if_neg hlt] at h
                    exact h

/-- Claim C2: under a well-formed logs root with pairwise-distinct parsed
task ids, a candidate with a `1-of-1` match and parseable `results.json`
has its task id in the output of the unsolved-task filter iff it is
unresolved, has an `agent-logs` directory, and (the threshold is unset or
its episode count is at most the threshold). -/
theorem get_unsolved_tasks_spec (root : List Candidate) (thr : Option Nat)
    (c : Candidate) (target : TraceSub) (ds : List TraceSub) (r : ResultsJson)
    (tid : String) (b : Bool)
    (hwf : rootWf root = true)
    (hnd : (root.filterMap parsedTaskId).Nodup)
    (hc : c ∈ root) (hcd : c.isDir = true)
    (hm : matchingDirs c = target :: ds)
    (hr : target.results = .parsed r)
    (hres : r.isResolvedField = some b)
    (hid : r.taskIdField = some tid) :
    get_unsolved_tasks root thr =
      .ok (root.filterMap (unsolvedSelector thr)) ∧
    (tid ∈ root.filterMap (unsolvedSelector thr) ↔
      (b = false ∧ target.agentLogs.isSome = true ∧
        (thr = none ∨ ∃ t, thr = some t ∧ target.agentLogs.getD 0 ≤ t))) := by
  have hptid : parsedTaskId c = some tid := by
    rw [parsedTaskId_cons hcd hm]
    unfold parsedTaskIdOf
    rw [hr]
    exact hid
  refine ⟨getUnsolvedGo_wf thr root [] hwf, ?_, ?_⟩
  · intro hin
    rcases List.mem_filterMap.mp hin with ⟨c', hc', hsel'⟩
    have hcc : c' = c :=
      filterMap_inj_of_nodup hnd hc' hc
        (unsolvedSelector_parsedTaskId hsel') hptid
    rw [hcc] at hsel'
    have h3 : selResolved thr target.agentLogs
        r.isResolvedField r.taskIdField = some tid := by
      have h4 : selectorFromTarget thr target = some tid :=
        (unsolvedSelector_cons hcd hm) ▸ hsel'
      unfold selectorFromTarget at h4
      rw [hr] at h4
      exact h4
    rw [hres, hid] at h3
    cases b with
    | true => cases h3
    | false =>
      replace h3 : selAgentLogs thr target.agentLogs tid = some tid := h3
      cases hal : target.agentLogs with
      | none => rw [hal] at h3; cases h3
      | some count =>
        rw [hal] at h3
        replace h3 : selThr thr count tid = some tid := h3
        refine ⟨rfl, rfl, ?_⟩

        cases thr with
        | none => exact Or.inl rfl
        | some t =>
          replace h3 : (if t < count then none else some tid) = some tid := h3
          by_cases hlt : t < count
          · rw [if_pos hlt] at h3
            cases h3
          · refine Or.inr ⟨t, rfl, ?_⟩
            simpa [hal] using Nat.le_of_not_lt hlt
  · rintro ⟨hb, hsome, hthr⟩
    rcases Option.isSome_iff_exists.mp hsome with ⟨count, hal⟩
    apply List.mem_filterMap.mpr
    refine ⟨c, hc, ?_⟩
    rw [unsolvedSelector_cons hcd hm]
    unfold selectorFromTarget
    rw [hr]
    show selResolved thr target.agentLogs r.isResolvedField r.taskIdField =
      some tid
    rw [hres, hid, hb, hal]
    show selThr thr count tid = some tid
    rcases hthr with hthr | ⟨t, ht, hle⟩
    · rw [hthr]
      rfl
    · rw [ht]
      rw [hal] at hle
      simp only [Option.getD_some] at hle
      show (if t < count then none else some tid : Option String) = some tid
      rw [if_neg (Nat.not_lt.mpr hle)]

/-- Witness for C2 at a concrete root: one unresolved task with 4
episodes and threshold 10 is included. -/
theorem get_unsolved_tasks_spec_witness :
    get_unsolved_tasks
      [⟨"a", true, [⟨"a.1-of-1", true, .parsed ⟨some false, some "a"⟩, some 4⟩]⟩]
      (some 10) =
      .ok ([⟨"a", true,
        [⟨"a.1-of-1", true, .parsed ⟨some false, some "a"⟩, some 4⟩]⟩].filterMap
          (unsolvedSelector (some 10))) ∧
    ("a" ∈ [(⟨"a", true,
        [⟨"a.1-of-1", true, .parsed ⟨some false, some "a"⟩, some 4⟩]⟩ : Candidate)].filterMap
          (unsolvedSelector (some 10)) ↔
      (false = false ∧
        (some 4 : Option Nat).isSome = true ∧
        ((some 10 : Option Nat) = none ∨
          ∃ t, (some 10 : Option Nat) = some t ∧
            (some 4 : Option Nat).getD 0 ≤ t))) :=
  get_unsolved_tasks_spec
    [⟨"a", true, [⟨"a.1-of-1", true, .parsed ⟨some false, some "a"⟩, some 4⟩]⟩]
    (some 10)
    ⟨"a", true, [⟨"a.1-of-1", true, .parsed ⟨some false, some "a"⟩, some 4⟩]⟩
    ⟨"a.1-of-1", true, .parsed ⟨some false, some "a"⟩, some 4⟩ []
    ⟨some false, some "a"⟩ "a" false
    (by decide) (by decide) (by decide) (by decide) (by decide) (by decide)
    (by decide) (by decide)

/-! ## Claim C3: the `alpha` threshold scenario

`register_unsolved_tasks.py` skips a task when
`len(list((target_dir / "agent-logs").iterdir())) > max_episodes_desired`,
so the threshold is an upper bound: 12 episodes are skipped at threshold
10 and included at threshold 15 — the opposite of the claimed scenario. -/

/-- Logs root with a single task `alpha`, `is_resolved=false`, 12
episodes. -/
def alphaRoot : List Candidate :=
  [⟨"alpha", true,
    [⟨"alpha.1-of-1", true, .parsed ⟨some false, some "alpha"⟩, some 12⟩]⟩]

/-- Counterexample to C3: at threshold 10 the filter output is empty
(`alpha` is NOT included, contradicting the claim), and at threshold 15
the output is `["alpha"]` (`alpha` is NOT excluded, contradicting the
claim). -/
theorem get_unsolved_tasks_threshold_flipped :
    get_unsolved_tasks alphaRoot (some 10) = .ok [] ∧
    ¬ ("alpha" ∈ ([] : List String)) ∧
    get_unsolved_tasks alphaRoot (some 15) = .ok ["alpha"] ∧
    "alpha" ∈ ["alpha"] := by
  refine ⟨rfl, by decide, rfl, by decide⟩

/-- Amended C3: for the `alpha` root (unresolved, 12 episodes), running
the unsolved-task filter with threshold 10 excludes `alpha` and running
it with threshold 15 includes `alpha` (the threshold is a maximum episode
count: tasks exceeding it are skipped). -/
theorem get_unsolved_tasks_threshold_scenario :
    get_unsolved_tasks alphaRoot (some 10) = .ok [] ∧
    get_unsolved_tasks alphaRoot (some 15) = .ok ["alpha"] := by
  exact ⟨rfl, rfl⟩

/-! ## Hash reorganizer (`hash_reorganize.py`)

The base path is modelled as a list of directory entries; each entry has
a name, a directory flag and (one level of) sub-entries — enough to model
the internal-subdirectory heuristic and `shutil.move` within one parent
directory.  The task-description lookup (`task.yaml` via terminal-bench)
is an external collaborator, passed in as a function
`descOf : String → Option String`. -/

structure SubItem where
  name : String
  isDir : Bool
deriving DecidableEq, Repr

structure DirEntry where
  name : String
  isDir : Bool
  subs : List SubItem
deriving DecidableEq, Repr

/-- The name filter of `find_task_directories` / `find_hash_directories`:
not hidden, not ending in `.json`/`.log`/`.lock`. -/
def goodEntryName (n : String) : Bool :=
  !pyStartsWith n "." &&
    !(pyEndsWith n ".json" || pyEndsWith n ".log" || pyEndsWith n ".lock")

/-- Structural hash-prefix shape: length > 9, 9th character a dash, first
8 characters hex after lowercasing. -/
def hashShaped (n : String) : Bool :=
  decide (9 < n.data.length) && decide (n.data.getD 8 ' ' = '-') &&
    (n.data.take 8).all (fun c => hexDigits.contains c.toLower)

/-- `is_hash_prefixed_directory`: hash shape plus an internal
subdirectory whose name starts with the remainder + `.`. -/
def is_hash_prefixed_directory (e : DirEntry) : Bool :=
  hashShaped e.name &&
    e.subs.any (fun s => s.isDir && pyStartsWith s.name (pyDropChars e.name 9 ++ "."))

/-- `find_task_directories`: the `{str(item): item.name}` dict over
filtered entries.  (The source's probe for an internal `task_subdir`
assigns the same key/value in both of its branches, so it has no effect
on the result.)  Paths are identified with entry names (all entries share
one parent directory). -/
def find_task_directories (base : List DirEntry) : List (String × String) :=
  base.foldl
    (fun m e =>
      if e.isDir && goodEntryName e.name then pyDictInsert m e.name e.name else m)
    []

/-- `find_hash_directories`: `{hash_part: [str(item)]}` over filtered,
hash-shaped entries; a later entry with the same 8-character prefix
replaces the earlier one (the dict value is a fresh singleton list each
time). -/
def find_hash_directories (base : List DirEntry) : List (String × String) :=
  base.foldl
    (fun m e =>
      if e.isDir && goodEntryName e.name && hashShaped e.name
      then pyDictInsert m (pyTakeChars e.name 8) e.name
      else m)
    []

/-- `shutil.move(src, tgt)` among the entries of one parent directory:
if the target name is free the entry is renamed in place; if the target
is an existing directory the source is moved inside it (or the move
fails and is caught when a child of that name already exists); if the
target is an existing file the move fails and is caught.  A missing
source also fails and is caught.  Failure leaves the state unchanged
(the caller catches and continues). -/
def pyMove (st : List DirEntry) (src tgt : String) : List DirEntry :=
  match st.find? (fun e => e.name = src) with
  | none => st
  | some e =>
    match st.find? (fun e => e.name = tgt) with
    | none => st.map (fun x => if x.name = src then { x with name := tgt } else x)
    | some t =>
      if t.isDir then
        if t.subs.any (fun s => s.name = src) then st
        else (st.filter (fun x => !(x.name = src : Bool))).map
          (fun x => if x.name = tgt
            then { x with subs := x.subs ++ [⟨src, e.isDir⟩] } else x)
      else st

/-- First entry with a given name (`Path` lookup by name). -/
def entryByName (base : List DirEntry) (n : String) : Option DirEntry :=
  base.find? (fun e => e.name = n)

/-- `reorganize_directories`: compute `task_to_hash` over the task
directories (skipping already-prefixed ones and ones without a usable
task description — Python's truthiness also skips an empty string), then
move each to `<hash>-<name>`. -/
def taskToHashFold (descOf : String → Option String)
    (base : List DirEntry) : List (String × String) :=
  (find_task_directories base).foldl
    (fun m p =>
      match entryByName base p.1 with
      | none => m
      | some e =>
        if is_hash_prefixed_directory e then m
        else
          match descOf p.2 with
          | none => m
          | some d => if d = "" then m else pyDictInsert m p.1 (create_task_hash d))
    []

def reorganize_directories (descOf : String → Option String)
    (base : List DirEntry) : List DirEntry :=
  (taskToHashFold descOf base).foldl
    (fun st p => pyMove st p.1 (p.2 ++ "-" ++ p.1)) base

/-- `reverse_reorganize_directories`: strip the first 9 characters from
every directory indexed by `find_hash_directories`. -/
def reverse_reorganize_directories (base : List DirEntry) : List DirEntry :=
  (find_hash_directories base).foldl
    (fun st p => pyMove st p.2 (pyDropChars p.2 9)) base

/-! ## Claim C4: reverse reorganization and the subdirectory heuristic

`find_hash_directories` checks only the name shape — the internal
`foo.*` subdirectory plays no role in the reverse direction — and it
keys its dict by the 8-character prefix, so of two directories sharing
the prefix `abcdef12` only the later-listed one survives indexing. -/

/-- Base path with a true hash-prefixed directory (`abcdef12-foo`, with
internal `foo.*` subdirectory) and a coincidentally hash-shaped one
(`abcdef12-bar`, without). -/
def c4State : List DirEntry :=
  [⟨"abcdef12-foo", true, [⟨"foo.1-of-1", true⟩]⟩,
   ⟨"abcdef12-bar", true, []⟩]

/-- Counterexample to C4: reverse reorganization renames only
`abcdef12-bar` (to `bar`) and leaves `abcdef12-foo` unchanged — not, as
claimed, the other way around. -/
theorem reverse_reorganize_c4_counterexample :
    (reverse_reorganize_directories c4State).map DirEntry.name =
      ["abcdef12-foo", "bar"] ∧
    (reverse_reorganize_directories c4State).map DirEntry.name ≠
      ["foo", "abcdef12-bar"] := by
  exact ⟨by decide, by decide⟩

/-- Amended C4: reverse reorganization ignores the internal-subdirectory
heuristic and indexes candidates by their 8-character prefix with
last-one-wins; on the two directories `abcdef12-foo` (true prefix) and
`abcdef12-bar` (coincidental), it renames only the later-listed
`abcdef12-bar` to `bar` and leaves `abcdef12-foo` unchanged. -/
theorem reverse_reorganize_c4_amended :
    reverse_reorganize_directories c4State =
      [⟨"abcdef12-foo", true, [⟨"foo.1-of-1", true⟩]⟩,
       ⟨"bar", true, []⟩] := by
  decide

/-! ## Claim C5: the forward/reverse round trip

The reverse pass indexes hash-prefixed directories by their 8-character
prefix with last-one-wins, so two task directories whose descriptions
hash to the same prefix (e.g. the same description text) break the round
trip: only one of them is renamed back. -/

/-- A task-description lookup giving `a` and `b` the same instruction
text. -/
def c5Desc (n : String) : Option String :=
  if n = "a" then some "x" else if n = "b" then some "x" else none

/-- Base path with two plain task directories `a` and `b`. -/
def c5Base : List DirEntry := [⟨"a", true, []⟩, ⟨"b", true, []⟩]

/-- Counterexample to C5: `a` and `b` are not hash-prefixed and both
have a resolvable (non-empty) task definition, yet forward-then-reverse
does not restore the original names: both become `2d711642-…`, the
reverse dict keeps only the last one, and the final names are
`["2d711642-a", "b"]`. -/
theorem reorganize_roundtrip_counterexample :
    (∀ e ∈ c5Base, is_hash_prefixed_directory e = false) ∧
    (c5Desc "a" = some "x" ∧ c5Desc "b" = some "x" ∧ ("x" : String) ≠ "") ∧
    (reverse_reorganize_directories
        (reorganize_directories c5Desc c5Base)).map DirEntry.name =
      ["2d711642-a", "b"] ∧
    (reverse_reorganize_directories
        (reorganize_directories c5Desc c5Base)).map DirEntry.name ≠
      c5Base.map DirEntry.name := by
  exact ⟨by decide, by decide, by decide, by decide⟩

/-! ### Tools for the round-trip proof -/

theorem foldl_congr_mem {α β : Type} {f g : β → α → β} :
    ∀ {l : List α} {b : β}, (∀ a ∈ l, ∀ x, f x a = g x a) →
      l.foldl f b = l.foldl g b := by
  intro l
  induction l with
  | nil => intro b _; rfl
  | cons a t ih =>
    intro b h
    rw [List.foldl_cons, List.foldl_cons, h a (by simp)]
    exact ih (fun a' ha' x => h a' (by simp [ha']) x)

theorem pyDictInsert_append {α : Type} {m : List (String × α)} {k : String}
    (v : α) (h : k ∉ keysOf m) : pyDictInsert m k v = m ++ [(k, v)] := by
  induction m with
  | nil => rfl
  | cons p rest ih =>
    obtain ⟨k0, v0⟩ := p
    have hk0 : ¬ k0 = k := by
      intro he
      exact h (by simp [keysOf, he])
    have hrest : k ∉ keysOf rest := by
      intro he
      exact h (by simp [keysOf] at he ⊢; exact Or.inr he)
    simp [pyDictInsert, hk0, ih hrest]

theorem foldl_pyDictInsert_map {α β : Type} (key : α → String) (val : α → β) :
    ∀ (l : List α) (m : List (String × β)),
    (l.map key).Nodup → (∀ a ∈ l, key a ∉ keysOf m) →
    l.foldl (fun m a => pyDictInsert m (key a) (val a)) m =
      m ++ l.map (fun a => (key a, val a)) := by
  intro l
  induction l with
  | nil => intro m _ _; simp
  | cons a t ih =>
    intro m hnd hfresh
    rw [List.foldl_cons, pyDictInsert_append (val a) (hfresh a (by simp))]
    have hnd' : (t.map key).Nodup := (List.nodup_cons.mp hnd).2
    have hfresh' : ∀ x ∈ t, key x ∉ keysOf (m ++ [(a |> key, a |> val)]) := by
      intro x hx hmem
      simp [keysOf] at hmem
      rcases hmem with hmem | hmem
      · exact hfresh x (by simp [hx]) (by simp [keysOf]; exact hmem)
      · exact (List.nodup_cons.mp hnd).1 (hmem ▸ List.mem_map_of_mem key hx)
    rw [ih (m ++ [(key a, val a)]) hnd' hfresh']
    simp

/-- Plain rename of one entry. -/
def renameTo (src tgt : String) (x : DirEntry) : DirEntry :=
  if x.name = src then { x with name := tgt } else x

/-- Apply the (first applicable) rename of a src→tgt pair list. -/
def renOnce (qs : List (String × String)) (x : DirEntry) : DirEntry :=
  match qs.find? (fun q => q.1 = x.name) with
  | some q => { x with name := q.2 }
  | none => x

theorem pyMove_rename (st : List DirEntry) (src tgt : String)
    (hs : src ∈ st.map DirEntry.name) (ht : tgt ∉ st.map DirEntry.name) :
    pyMove st src tgt = st.map (renameTo src tgt) := by
  have hfind : (st.find? (fun e => e.name = src)).isSome = true := by
    rw [List.find?_isSome]
    rcases List.mem_map.mp hs with ⟨e, he, hname⟩
    exact ⟨e, he, by simp [hname]⟩
  have hnone : st.find? (fun e => e.name = tgt) = none := by
    rw [List.find?_eq_none]
    intro x hx hxt
    exact ht (List.mem_map.mpr ⟨x, hx, of_decide_eq_true hxt⟩)
  rcases Option.isSome_iff_exists.mp hfind with ⟨e, he⟩
  unfold pyMove
  rw [he, hnone]
  rfl

theorem map_name_rename (st : List DirEntry) (src tgt : String) :
    (st.map (renameTo src tgt)).map DirEntry.name =
      (st.map DirEntry.name).map (fun n => if n = src then tgt else n) := by
  rw [List.map_map, List.map_map]
  apply List.map_congr_left
  intro x _
  unfold renameTo
  by_cases h : x.name = src <;> simp [h]

theorem nodup_subst {l : List String} {a b : String}
    (h : l.Nodup) (hb : b ∉ l) :
    (l.map (fun n => if n = a then b else n)).Nodup := by
  induction l with
  | nil => simp
  | cons n t ih =>
    have hn : n ∉ t := (List.nodup_cons.mp h).1
    have ht : t.Nodup := (List.nodup_cons.mp h).2
    have hbt : b ∉ t := fun hx => hb (by simp [hx])
    have hbn : b ≠ n := fun hx => hb (by simp [hx])
    rw [List.map_cons, List.nodup_cons]
    refine ⟨?_, ih ht hbt⟩
    intro hmem
    rcases List.mem_map.mp hmem with ⟨m, hm, hme⟩
    by_cases hma : m = a
    · rw [if_pos hma] at hme
      by_cases hna : n = a
      · exact hn (by rw [hna, ← hma]; exact hm)
      · rw [if_neg hna] at hme
        exact hbn hme
    · rw [if_neg hma] at hme
      by_cases hna : n = a
      · rw [if_pos hna] at hme
        exact hbt (hme ▸ hm)
      · rw [if_neg hna] at hme
        exact hn (hme ▸ hm)

theorem find?_name_self :
    ∀ {st : List DirEntry} {e : DirEntry},
    (st.map DirEntry.name).Nodup → e ∈ st →
    st.find? (fun x => x.name = e.name) = some e := by
  intro st
  induction st with
  | nil => intro e _ h; cases h
  | cons a t ih =>
    intro e hnd he
    rw [List.mem_cons] at he
    rcases he with he | he
    · rw [he]
      apply List.find?_cons_of_pos
      simp
    · by_cases hae : a.name = e.name
      · exfalso
        have : e.name ∈ t.map DirEntry.name := List.mem_map_of_mem _ he
        exact (List.nodup_cons.mp hnd).1 (hae ▸ this)
      · rw [List.find?_cons_of_neg _ (by simp [hae])]
        exact ih (List.nodup_cons.mp hnd).2 he

theorem find?_pair_self {g : DirEntry → String} :
    ∀ {st : List DirEntry} {e : DirEntry},
    (st.map DirEntry.name).Nodup → e ∈ st →
    (st.map (fun a => (a.name, g a))).find? (fun q => q.1 = e.name) =
      some (e.name, g e) := by
  intro st
  induction st with
  | nil => intro e _ h; cases h
  | cons a t ih =>
    intro e hnd he
    rw [List.mem_cons] at he
    rw [List.map_cons]
    rcases he with he | he
    · rw [he]
      apply List.find?_cons_of_pos
      simp
    · by_cases hae : a.name = e.name
      · exfalso
        have : e.name ∈ t.map DirEntry.name := List.mem_map_of_mem _ he
        exact (List.nodup_cons.mp hnd).1 (hae ▸ this)
      · rw [List.find?_cons_of_neg _ (by simp [hae])]
        exact ih (List.nodup_cons.mp hnd).2 he

theorem foldl_pyMove :
    ∀ (qs : List (String × String)) (st : List DirEntry),
    (st.map DirEntry.name).Nodup →
    (qs.map Prod.fst).Nodup →
    (qs.map Prod.snd).Nodup →
    (∀ q ∈ qs, q.1 ∈ st.map DirEntry.name) →
    (∀ q ∈ qs, q.2 ∉ st.map DirEntry.name) →
    (∀ q ∈ qs, ∀ p ∈ qs, q.2 ≠ p.1) →
    qs.foldl (fun st q => pyMove st q.1 q.2) st = st.map (renOnce qs) := by
  intro qs
  induction qs with
  | nil =>
    intro st _ _ _ _ _ _
    have hid : ∀ x ∈ st, renOnce [] x = x := fun x _ => rfl
    rw [List.foldl_nil, List.map_congr_left hid]
    simp
  | cons q l ih =>
    intro st hnd hsrc htgt hs ht hts
    rw [List.foldl_cons,
      pyMove_rename st q.1 q.2 (hs q (by simp)) (ht q (by simp))]
    have hnd' : ((st.map (renameTo q.1 q.2)).map DirEntry.name).Nodup := by
      rw [map_name_rename]
      exact nodup_subst hnd (ht q (by simp))
    have hs' : ∀ p ∈ l, p.1 ∈ (st.map (renameTo q.1 q.2)).map DirEntry.name := by
      intro p hp
      rw [map_name_rename]
      have hpq : p.1 ≠ q.1 := by
        intro he
        exact (List.nodup_cons.mp hsrc).1 (he ▸ List.mem_map_of_mem Prod.fst hp)
      exact List.mem_map.mpr ⟨p.1, hs p (by simp [hp]), by rw [if_neg hpq]⟩
    have ht' : ∀ p ∈ l, p.2 ∉ (st.map (renameTo q.1 q.2)).map DirEntry.name := by
      intro p hp hmem
      rw [map_name_rename] at hmem
      rcases List.mem_map.mp hmem with ⟨n, hn, hne⟩
      by_cases hq : n = q.1
      · rw [if_pos hq] at hne
        exact (List.nodup_cons.mp htgt).1 (hne ▸ List.mem_map_of_mem Prod.snd hp)
      · rw [if_neg hq] at hne
        exact ht p (by simp [hp]) (hne ▸ hn)
    have hcomp : ∀ x ∈ st, renOnce l (renameTo q.1 q.2 x) = renOnce (q :: l) x := by
      intro x _
      by_cases hx : x.name = q.1
      · have hren : renameTo q.1 q.2 x = { x with name := q.2 } := by
          unfold renameTo
          rw [if_pos hx]
        have hfindl : l.find? (fun p => p.1 = ({ x with name := q.2 } : DirEntry).name) = none := by
          rw [List.find?_eq_none]
          intro p hp hpq
          exact hts q (by simp) p (by simp [hp])
            (of_decide_eq_true hpq).symm
        have h1 : renOnce l (renameTo q.1 q.2 x) = { x with name := q.2 } := by
          rw [hren]
          unfold renOnce
          rw [hfindl]
        have h2 : renOnce (q :: l) x = { x with name := q.2 } := by
          unfold renOnce
          rw [List.find?_cons_of_pos _ (by simp [hx])]
        rw [h1, h2]
      · have hren : renameTo q.1 q.2 x = x := by
          unfold renameTo
          rw [if_neg hx]
        rw [hren]
        unfold renOnce
        rw [List.find?_cons_of_neg _ (by simp; intro h; exact hx h.symm)]
    rw [ih (st.map (renameTo q.1 q.2)) hnd' (List.nodup_cons.mp hsrc).2
      (List.nodup_cons.mp htgt).2 hs' ht'
      (fun a ha p hp => hts a (by simp [ha]) p (by simp [hp])),
      List.map_map]
    exact List.map_congr_left hcomp

/-! ### Shape of `<hash>-<name>` strings -/

theorem create_task_hash_data_length (s : String) :
    (create_task_hash s).data.length = 8 := by
  show ((sha256Hexdigest (utf8Encode s)).take 8).length = 8
  rw [List.length_take, sha256Hexdigest_length]
  rfl

theorem create_task_hash_data_hex (s : String) :
    ∀ c ∈ (create_task_hash s).data, c ∈ hexDigits := by
  intro c hc
  have hc' : c ∈ sha256Hexdigest (utf8Encode s) := List.take_subset 8 _ hc
  rcases List.mem_flatMap.mp hc' with ⟨b, _, hb⟩
  exact mem_hexByte c b hb

theorem data_hash_name (h n : String) :
    (h ++ "-" ++ n).data = h.data ++ '-' :: n.data := by
  rw [String.data_append, String.data_append]
  simp

theorem data_hash_name' (h n : String) :
    (h ++ "-" ++ n).data = (h.data ++ ['-']) ++ n.data := by
  rw [data_hash_name]
  simp

theorem hash_name_inj {h h' n n' : String}
    (hl : h.data.length = 8) (hl' : h'.data.length = 8)
    (he : h ++ "-" ++ n = h' ++ "-" ++ n') : h = h' ∧ n = n' := by
  have hd : (h.data ++ ['-']) ++ n.data = (h'.data ++ ['-']) ++ n'.data := by
    rw [← data_hash_name', ← data_hash_name', he]
  have hlen : (h.data ++ ['-']).length = (h'.data ++ ['-']).length := by
    simp [hl, hl']
  rcases List.append_inj hd hlen with ⟨hd1, hd2⟩
  have hh : h.data = h'.data := by
    rcases List.append_inj hd1 (by simp [hl, hl']) with ⟨hh, -⟩
    exact hh
  constructor
  · have := congrArg String.mk hh
    simpa using this
  · have := congrArg String.mk hd2
    simpa using this

theorem pyTakeChars_hash_name {h : String} (n : String)
    (hl : h.data.length = 8) : pyTakeChars (h ++ "-" ++ n) 8 = h := by
  unfold pyTakeChars
  rw [data_hash_name, List.take_left' hl]

theorem pyDropChars_hash_name {h : String} (n : String)
    (hl : h.data.length = 8) : pyDropChars (h ++ "-" ++ n) 9 = n := by
  unfold pyDropChars
  have h9 : (h.data ++ ['-']).length = 9 := by simp [hl]
  rw [data_hash_name', ← h9, List.drop_left]

theorem mem_of_getLastEq :
    ∀ {l : List Char} {a : Char}, l.getLast? = some a → a ∈ l := by
  intro l
  induction l with
  | nil => intro a h; cases h
  | cons c t ih =>
    intro a h
    cases t with
    | nil =>
      simp [List.getLast?] at h
      simp [h]
    | cons d u =>
      rw [List.getLast?_cons_cons] at h
      simp [ih h]

theorem pyEndsWith_hash_name {h n ext : String}
    (hdash : '-' ∉ ext.data)
    (he : pyEndsWith (h ++ "-" ++ n) ext = true) :
    pyEndsWith n ext = true := by
  unfold pyEndsWith at he ⊢
  rw [List.isSuffixOf_iff_suffix] at he ⊢
  rw [data_hash_name'] at he
  have hn : n.data <:+ (h.data ++ ['-']) ++ n.data := ⟨h.data ++ ['-'], rfl⟩
  rcases List.suffix_or_suffix_of_suffix he hn with hcase | hcase
  · exact hcase
  · rcases hcase with ⟨u, hu⟩
    rcases he with ⟨t, ht⟩
    by_cases hu0 : u = []
    · rw [hu0] at hu
      rw [← hu]
      simp
    · exfalso
      apply hdash
      rw [← hu] at ht
      have ht' : (h.data ++ ['-']) ++ n.data = (t ++ u) ++ n.data := by
        rw [← ht]
        simp
      rcases List.append_inj' ht' rfl with ⟨h1, -⟩
      have hlast : u.getLast? = some '-' := by
        have e1 : (t ++ u).getLast? = u.getLast? :=
          List.getLast?_append_of_ne_nil t hu0
        have e2 : ((h.data ++ ['-'])).getLast? = some '-' := by
          rw [List.getLast?_append_of_ne_nil h.data (by simp)]
          rfl
        rw [← h1, e2] at e1
        exact e1.symm
      have : '-' ∈ u := mem_of_getLastEq hlast
      rw [← hu]
      exact List.mem_append.mpr (Or.inl this)

theorem goodEntryName_iff (n : String) : goodEntryName n = true ↔
    (pyStartsWith n "." = false ∧ pyEndsWith n ".json" = false ∧
     pyEndsWith n ".log" = false ∧ pyEndsWith n ".lock" = false) := by
  unfold goodEntryName
  cases pyStartsWith n "." <;> cases pyEndsWith n ".json" <;>
    cases pyEndsWith n ".log" <;> cases pyEndsWith n ".lock" <;> simp

theorem pyStartsWith_dot_hash_name {h : String} (n : String)
    (hlen : h.data.length = 8) (hhex : ∀ c ∈ h.data, c ∈ hexDigits) :
    pyStartsWith (h ++ "-" ++ n) "." = false := by
  unfold pyStartsWith
  rw [data_hash_name]
  cases hd : h.data with
  | nil => rw [hd] at hlen; simp at hlen
  | cons c rest =>
    have hc : c ∈ hexDigits := hhex c (by rw [hd]; simp)
    have hcne : ('.' == c) = false := by
      have hcd : c ≠ '.' := by
        intro he
        rw [he] at hc
        exact absurd hc (by decide)
      exact beq_eq_false_iff_ne.mpr (fun hh => hcd hh.symm)
    show (('.' == c) && List.isPrefixOf [] (rest ++ '-' :: n.data)) = false
    rw [hcne, Bool.false_and]

theorem hashShaped_hash_name {h n : String}
    (hlen : h.data.length = 8) (hhex : ∀ c ∈ h.data, c ∈ hexDigits)
    (hne : n.data ≠ []) : hashShaped (h ++ "-" ++ n) = true := by
  unfold hashShaped
  rw [data_hash_name]
  have h1 : decide (9 < (h.data ++ '-' :: n.data).length) = true := by
    rw [decide_eq_true_eq, List.length_append, hlen]
    simp only [List.length_cons]
    have := List.length_pos.mpr hne
    omega
  have h2 : decide ((h.data ++ '-' :: n.data).getD 8 ' ' = '-') = true := by
    rw [decide_eq_true_eq,
      List.getD_append_right _ _ ' ' 8 (by rw [hlen]), hlen]
    rfl
  have h3 : (((h.data ++ '-' :: n.data).take 8).all
      (fun c => hexDigits.contains c.toLower)) = true := by
    rw [List.take_left' hlen, List.all_eq_true]
    intro c hc
    have hdec : ∀ c ∈ hexDigits, hexDigits.contains c.toLower = true := by decide
    exact hdec c (hhex c hc)
  rw [h1, h2, h3]
  rfl

theorem goodEntryName_hash_name {h n : String}
    (hlen : h.data.length = 8) (hhex : ∀ c ∈ h.data, c ∈ hexDigits)
    (hgood : goodEntryName n = true) :
    goodEntryName (h ++ "-" ++ n) = true := by
  rcases (goodEntryName_iff n).mp hgood with ⟨-, hj, hl, hk⟩
  have hgen : ∀ ext : String, '-' ∉ ext.data → pyEndsWith n ext = false →
      pyEndsWith (h ++ "-" ++ n) ext = false := by
    intro ext hd hf
    cases hE : pyEndsWith (h ++ "-" ++ n) ext with
    | false => rfl
    | true =>
      exact absurd (pyEndsWith_hash_name hd hE)
        (by rw [hf]; exact Bool.false_ne_true)
  exact (goodEntryName_iff _).mpr
    ⟨pyStartsWith_dot_hash_name n hlen hhex,
     hgen ".json" (by decide) hj, hgen ".log" (by decide) hl,
     hgen ".lock" (by decide) hk⟩

/-! ### The phases of the forward transform -/

/-- The hash a task directory receives, given its description lookup. -/
def hashOf (descOf : String → Option String) (n : String) : String :=
  create_task_hash ((descOf n).getD "")

theorem find_task_directories_eq (base : List DirEntry)
    (h1 : ∀ e ∈ base, e.isDir = true)
    (h2 : ∀ e ∈ base, goodEntryName e.name = true)
    (h3 : (base.map DirEntry.name).Nodup) :
    find_task_directories base = base.map (fun e => (e.name, e.name)) := by
  unfold find_task_directories
  refine (foldl_congr_mem
    (g := fun m e => pyDictInsert m e.name e.name) ?_).trans ?_
  · intro e he m
    show (if e.isDir && goodEntryName e.name
      then pyDictInsert m e.name e.name else m) = _
    rw [h1 e he, h2 e he]
    rfl
  · have hfresh : ∀ e ∈ base, e.name ∉ keysOf ([] : List (String × String)) := by
      intro e _ h
      cases h
    have := foldl_pyDictInsert_map DirEntry.name DirEntry.name base [] h3 hfresh
    simpa using this

theorem entryByName_self {base : List DirEntry} {e : DirEntry}
    (h3 : (base.map DirEntry.name).Nodup) (he : e ∈ base) :
    entryByName base e.name = some e :=
  find?_name_self h3 he

theorem taskToHashFold_eq (descOf : String → Option String)
    (base : List DirEntry)
    (h1 : ∀ e ∈ base, e.isDir = true)
    (h2 : ∀ e ∈ base, goodEntryName e.name = true)
    (h3 : (base.map DirEntry.name).Nodup)
    (h4 : ∀ e ∈ base, is_hash_prefixed_directory e = false)
    (h5 : ∀ e ∈ base, ∃ d, descOf e.name = some d ∧ d ≠ "") :
    taskToHashFold descOf base =
      base.map (fun e => (e.name, hashOf descOf e.name)) := by
  unfold taskToHashFold
  rw [find_task_directories_eq base h1 h2 h3, List.foldl_map]
  refine (foldl_congr_mem
    (g := fun m e => pyDictInsert m e.name (hashOf descOf e.name)) ?_).trans ?_
  · intro e he m
    show (match entryByName base e.name with
      | none => m
      | some x =>
        if is_hash_prefixed_directory x then m
        else
          match descOf e.name with
          | none => m
          | some d =>
            if d = "" then m else pyDictInsert m e.name (create_task_hash d)) = _
    rw [entryByName_self h3 he]
    show (if is_hash_prefixed_directory e then m
      else
        match descOf e.name with
        | none => m
        | some d =>
          if d = "" then m else pyDictInsert m e.name (create_task_hash d)) = _
    rw [h4 e he]
    rcases h5 e he with ⟨d, hd, hdne⟩
    show (match descOf e.name with
      | none => m
      | some d =>
        if d = "" then m else pyDictInsert m e.name (create_task_hash d)) = _
    rw [hd]
    show (if d = "" then m else pyDictInsert m e.name (create_task_hash d)) = _
    rw [if_neg hdne]
    show pyDictInsert m e.name (create_task_hash d) =
      pyDictInsert m e.name (create_task_hash ((descOf e.name).getD ""))
    rw [hd]
    rfl
  · have hfresh : ∀ e ∈ base, e.name ∉ keysOf ([] : List (String × String)) := by
      intro e _ h
      cases h
    have := foldl_pyDictInsert_map DirEntry.name
      (fun e => hashOf descOf e.name) base [] h3 hfresh
    simpa using this

theorem tgt_nodup (descOf : String → Option String) (base : List DirEntry)
    (h3 : (base.map DirEntry.name).Nodup)
    (h6 : (base.map (fun e => hashOf descOf e.name)).Nodup) :
    (base.map (fun e => hashOf descOf e.name ++ "-" ++ e.name)).Nodup := by
  apply List.Nodup.map_on ?_ (List.Nodup.of_map DirEntry.name h3)
  intro x hx y hy hxy
  have hlx := create_task_hash_data_length ((descOf x.name).getD "")
  have hly := create_task_hash_data_length ((descOf y.name).getD "")
  rcases hash_name_inj hlx hly hxy with ⟨-, hn⟩
  exact List.inj_on_of_nodup_map h3 hx hy hn

theorem reorganize_eq (descOf : String → Option String) (base : List DirEntry)
    (h1 : ∀ e ∈ base, e.isDir = true)
    (h2 : ∀ e ∈ base, goodEntryName e.name = true)
    (h3 : (base.map DirEntry.name).Nodup)
    (h4 : ∀ e ∈ base, is_hash_prefixed_directory e = false)
    (h5 : ∀ e ∈ base, ∃ d, descOf e.name = some d ∧ d ≠ "")
    (h6 : (base.map (fun e => hashOf descOf e.name)).Nodup)
    (h7 : ∀ e ∈ base, ∀ e' ∈ base,
      hashOf descOf e.name ++ "-" ++ e.name ≠ e'.name) :
    reorganize_directories descOf base =
      base.map (fun e =>
        { e with name := hashOf descOf e.name ++ "-" ++ e.name }) := by
  unfold reorganize_directories
  rw [taskToHashFold_eq descOf base h1 h2 h3 h4 h5, List.foldl_map]
  have hqs1 : ((base.map (fun e =>
      (e.name, hashOf descOf e.name ++ "-" ++ e.name))).map Prod.fst) =
      base.map DirEntry.name := by
    rw [List.map_map]
    apply List.map_congr_left
    intro x _
    rfl
  have hqs2 : ((base.map (fun e =>
      (e.name, hashOf descOf e.name ++ "-" ++ e.name))).map Prod.snd) =
      base.map (fun e => hashOf descOf e.name ++ "-" ++ e.name) := by
    rw [List.map_map]
    apply List.map_congr_left
    intro x _
    rfl
  have hmv := foldl_pyMove
    (base.map (fun e => (e.name, hashOf descOf e.name ++ "-" ++ e.name))) base
    h3 (by rw [hqs1]; exact h3) (by rw [hqs2]; exact tgt_nodup descOf base h3 h6)
    ?_ ?_ ?_
  · rw [List.foldl_map] at hmv
    refine Eq.trans ?_ (hmv.trans ?_)
    · rfl
    · apply List.map_congr_left
      intro e he
      unfold renOnce
      rw [find?_pair_self h3 he]
  · intro q hq
    rcases List.mem_map.mp hq with ⟨e, he, hqe⟩
    rw [← hqe]
    exact List.mem_map_of_mem DirEntry.name he
  · intro q hq hmem
    rcases List.mem_map.mp hq with ⟨e, he, hqe⟩
    rcases List.mem_map.mp hmem with ⟨e', he', hne⟩
    exact h7 e he e' he' (by rw [hne, ← hqe])
  · intro q hq p hp
    rcases List.mem_map.mp hq with ⟨e, he, hqe⟩
    rcases List.mem_map.mp hp with ⟨e', he', hpe⟩
    rw [← hqe, ← hpe]
    exact h7 e he e' he'

theorem string_data_ne_nil {s : String} (h : s ≠ "") : s.data ≠ [] := by
  intro hd
  apply h
  have := congrArg String.mk hd
  simpa using this

/-- Amended C5: forward-then-reverse reorganization restores the base
path exactly, provided the task directories are genuine (directories
with filter-passing, pairwise-distinct, non-empty names), none is
already hash-prefixed, each has a resolvable non-empty description,
the computed hash prefixes are pairwise distinct, and no directory is
already named `<hash>-<name>` of some task directory. -/
theorem reorganize_roundtrip (descOf : String → Option String)
    (base : List DirEntry)
    (h1 : ∀ e ∈ base, e.isDir = true)
    (h2 : ∀ e ∈ base, goodEntryName e.name = true)
    (h3 : (base.map DirEntry.name).Nodup)
    (h4 : ∀ e ∈ base, is_hash_prefixed_directory e = false)
    (h5 : ∀ e ∈ base, ∃ d, descOf e.name = some d ∧ d ≠ "")
    (h6 : (base.map (fun e => hashOf descOf e.name)).Nodup)
    (h7 : ∀ e ∈ base, ∀ e' ∈ base,
      hashOf descOf e.name ++ "-" ++ e.name ≠ e'.name)
    (h8 : ∀ e ∈ base, e.name ≠ "") :
    reverse_reorganize_directories (reorganize_directories descOf base) =
      base := by
  rw [reorganize_eq descOf base h1 h2 h3 h4 h5 h6 h7]
  set F := base.map (fun e =>
    { e with name := hashOf descOf e.name ++ "-" ++ e.name }) with hFdef
  have hFchar : ∀ x ∈ F, ∃ e, e ∈ base ∧
      x = { e with name := hashOf descOf e.name ++ "-" ++ e.name } := by
    intro x hx
    rcases List.mem_map.mp hx with ⟨e, he, hxe⟩
    exact ⟨e, he, hxe.symm⟩
  have hFnames : F.map DirEntry.name =
      base.map (fun e => hashOf descOf e.name ++ "-" ++ e.name) := by
    rw [hFdef, List.map_map]
    apply List.map_congr_left
    intro x _
    rfl
  have hFnd : (F.map DirEntry.name).Nodup := by
    rw [hFnames]
    exact tgt_nodup descOf base h3 h6
  have hdict : find_hash_directories F =
      F.map (fun x => (pyTakeChars x.name 8, x.name)) := by
    unfold find_hash_directories
    refine (foldl_congr_mem
      (g := fun m x => pyDictInsert m (pyTakeChars x.name 8) x.name) ?_).trans ?_
    · intro x hx m
      rcases hFchar x hx with ⟨e, he, hxe⟩
      have hxd : x.isDir = true := by
        rw [hxe]
        exact h1 e he
      have hxn : x.name = hashOf descOf e.name ++ "-" ++ e.name := by
        rw [hxe]
      have hxg : goodEntryName x.name = true := by
        rw [hxn]
        exact goodEntryName_hash_name
          (create_task_hash_data_length _) (create_task_hash_data_hex _)
          (h2 e he)
      have hxs : hashShaped x.name = true := by
        rw [hxn]
        exact hashShaped_hash_name
          (create_task_hash_data_length _) (create_task_hash_data_hex _)
          (string_data_ne_nil (h8 e he))
      show (if x.isDir && goodEntryName x.name && hashShaped x.name
        then pyDictInsert m (pyTakeChars x.name 8) x.name else m) = _
      rw [hxd, hxg, hxs]
      rfl
    · have hkeys : F.map (fun x => pyTakeChars x.name 8) =
          base.map (fun e => hashOf descOf e.name) := by
        rw [hFdef, List.map_map]
        apply List.map_congr_left
        intro e _
        show pyTakeChars (hashOf descOf e.name ++ "-" ++ e.name) 8 =
          hashOf descOf e.name
        exact pyTakeChars_hash_name _ (create_task_hash_data_length _)
      have hfresh : ∀ x ∈ F,
          pyTakeChars x.name 8 ∉ keysOf ([] : List (String × String)) := by
        intro x _ h
        cases h
      have := foldl_pyDictInsert_map (fun x => pyTakeChars x.name 8)
        DirEntry.name F [] (by rw [hkeys]; exact h6) hfresh
      simpa using this
  have hqs1 : ((F.map (fun x => (x.name, pyDropChars x.name 9))).map Prod.fst) =
      F.map DirEntry.name := by
    rw [List.map_map]
    apply List.map_congr_left
    intro x _
    rfl
  have hqs2 : ((F.map (fun x => (x.name, pyDropChars x.name 9))).map Prod.snd) =
      base.map DirEntry.name := by
    rw [List.map_map, hFdef, List.map_map]
    apply List.map_congr_left
    intro e _
    show pyDropChars (hashOf descOf e.name ++ "-" ++ e.name) 9 = e.name
    exact pyDropChars_hash_name _ (create_task_hash_data_length _)
  have hdropname : ∀ x ∈ F, ∃ e, e ∈ base ∧ pyDropChars x.name 9 = e.name ∧
      x.name = hashOf descOf e.name ++ "-" ++ e.name := by
    intro x hx
    rcases hFchar x hx with ⟨e, he, hxe⟩
    refine ⟨e, he, ?_, by rw [hxe]⟩
    rw [hxe]
    exact pyDropChars_hash_name _ (create_task_hash_data_length _)
  have hmv := foldl_pyMove (F.map (fun x => (x.name, pyDropChars x.name 9))) F
    hFnd (by rw [hqs1]; exact hFnd) (by rw [hqs2]; exact h3)
    ?_ ?_ ?_
  · unfold reverse_reorganize_directories
    rw [hdict, List.foldl_map]
    rw [List.foldl_map] at hmv
    refine Eq.trans ?_ (hmv.trans ?_)
    · rfl
    · have hren : ∀ x ∈ F, renOnce
          (F.map (fun x => (x.name, pyDropChars x.name 9))) x =
          { x with name := pyDropChars x.name 9 } := by
        intro x hx
        unfold renOnce
        rw [find?_pair_self hFnd hx]
      rw [List.map_congr_left hren, hFdef, List.map_map]
      have hcomp2 : List.map
          ((fun x => { x with name := pyDropChars x.name 9 }) ∘
            (fun e => { e with name := hashOf descOf e.name ++ "-" ++ e.name }))
          base = List.map (fun e => e) base := by
        apply List.map_congr_left
        intro e _
        show ({ e with name := pyDropChars (hashOf descOf e.name ++ "-" ++ e.name) 9 }) = e
        have hd : pyDropChars (hashOf descOf e.name ++ "-" ++ e.name) 9 =
            e.name := pyDropChars_hash_name _ (create_task_hash_data_length _)
        rw [hd]
      exact hcomp2.trans (by simp)
  · intro q hq
    rcases List.mem_map.mp hq with ⟨x, hx, hqx⟩
    rw [← hqx]
    exact List.mem_map_of_mem DirEntry.name hx
  · intro q hq hmem
    rcases List.mem_map.mp hq with ⟨x, hx, hqx⟩
    rcases hdropname x hx with ⟨e, he, hdrop, -⟩
    rw [hFnames] at hmem
    rcases List.mem_map.mp hmem with ⟨e', he', hne⟩
    apply h7 e' he' e he
    rw [hne, ← hqx, hdrop]
  · intro q hq p hp
    rcases List.mem_map.mp hq with ⟨x, hx, hqx⟩
    rcases List.mem_map.mp hp with ⟨y, hy, hpy⟩
    rcases hdropname x hx with ⟨e, he, hdrop, -⟩
    rcases hdropname y hy with ⟨e', he', -, hyname⟩
    intro hqp
    apply h7 e' he' e he
    rw [← hyname]
    rw [← hqx, ← hpy] at hqp
    replace hqp : pyDropChars x.name 9 = y.name := hqp
    rw [← hqp]
    exact hdrop

/-- Description lookup for the round-trip witness: distinct texts. -/
def c5DescW (n : String) : Option String :=
  if n = "a" then some "x" else if n = "b" then some "y" else none

/-- Witness for the amended C5 at a concrete base path. -/
theorem reorganize_roundtrip_witness :
    reverse_reorganize_directories
      (reorganize_directories c5DescW [⟨"a", true, []⟩, ⟨"b", true, []⟩]) =
      [⟨"a", true, []⟩, ⟨"b", true, []⟩] :=
  reorganize_roundtrip c5DescW [⟨"a", true, []⟩, ⟨"b", true, []⟩]
    (by decide) (by decide) (by decide) (by decide)
    (by
      intro e he
      fin_cases he
      · exact ⟨"x", rfl, by decide⟩
      · exact ⟨"y", rfl, by decide⟩)
    (by decide) (by decide) (by decide)

/-! ## Replay reconstructor (`replay_agent.py`)

The trajectory root (`TRAJECTORY_FOLDER`) is a list of top-level
directories, each with `1-of-1` candidate subdirectories carrying an
optional `agent-logs` directory of episode directories.  Terminal
commands are abstract strings; `CommandBatchResponse` keeps the fields
the replay logic reads (`commands`, `is_task_complete`).  A `none`
response models a missing or unparseable `response.json` (both are
swallowed by `_read_episode_response`); `debugInput` is the `input`
list of `debug.json` when present and well-formed. -/

structure CmdBatch where
  commands : List String
  isTaskComplete : Bool
deriving DecidableEq, Repr

structure MsgPart where
  textF : Option String
deriving DecidableEq, Repr

inductive MsgContent where
  | scalar (s : String) : MsgContent
  | parts (l : List MsgPart) : MsgContent
deriving DecidableEq, Repr

structure Msg where
  role : String
  content : MsgContent
deriving DecidableEq, Repr

structure EpisodeDir where
  name : String
  isDir : Bool
  response : Option CmdBatch
  debugInput : Option (List Msg)
deriving DecidableEq, Repr

structure TrajSub where
  name : String
  isDir : Bool
  agentLogs : Option (List EpisodeDir)
deriving DecidableEq, Repr

structure TrajTop where
  name : String
  isDir : Bool
  subs : List TrajSub
deriving DecidableEq, Repr

/-- `_find_trajectory_folder`: first top-level directory whose name
starts with `<hash>-`, then its first `1-of-1` subdirectory. -/
def find_trajectory_folder (basePath : List TrajTop) (taskHash : String) :
    Option TrajSub :=
  match basePath.find? (fun i => i.isDir && pyStartsWith i.name (taskHash ++ "-")) with
  | none => none
  | some tb => tb.subs.find? (fun s => s.isDir && pyHasSub s.name "1-of-1")

/-- `int(item.name.split("-")[1])`. -/
def parseEpisodeNum (name : String) : Option Int :=
  match pySplitOn name '-' with
  | _ :: second :: _ => pyParseInt second
  | _ => none

/-- The well-formed episode directories: directories named
`episode-<N>` with a parseable integer `N` (a `ValueError` skips the
entry), paired with their numbers, in discovery order. -/
def wfEpisodes (eps : List EpisodeDir) : List (Int × EpisodeDir) :=
  eps.filterMap (fun e =>
    if e.isDir && pyStartsWith e.name "episode-"
    then (parseEpisodeNum e.name).map (fun n => (n, e))
    else none)

/-- Stable insertion of an element arriving after the elements of the
list: it is placed before the first strictly greater key, after equal
keys. -/
def stableInsert (a : Int × EpisodeDir) :
    List (Int × EpisodeDir) → List (Int × EpisodeDir)
  | [] => [a]
  | b :: t => if a.1 < b.1 then a :: b :: t else b :: stableInsert a t

/-- `episode_dirs.sort(key=lambda x: x[0])`: Python's `list.sort` is a
stable ascending sort by key; any stable ascending sort computes the
same list, modelled here as stable insertion sort. -/
def pyStableSort (l : List (Int × EpisodeDir)) : List (Int × EpisodeDir) :=
  l.foldl (fun acc x => stableInsert x acc) []

/-- The sorted episode list of `_read_trajectories`. -/
def episodeOrder (eps : List EpisodeDir) : List (Int × EpisodeDir) :=
  pyStableSort (wfEpisodes eps)

/-- The external pydantic `model_dump_json` serializer, abstracted as an
executable printer of the batch record. -/
def serializeBatch (b : CmdBatch) : String := reprStr b

/-- `_clean_debug_messages` on one message: list content collapses to
its first part's `text` (raising on an empty list or missing key);
scalar content passes through. -/
def cleanMsg (m : Msg) : Except String Msg :=
  match m.content with
  | .parts [] => .error "IndexError: message content[0]"
  | .parts (p :: _) =>
    match p.textF with
    | none => .error "KeyError: text"
    | some t => .ok ⟨m.role, .scalar t⟩
  | .scalar s => .ok ⟨m.role, .scalar s⟩

def cleanMessages : List Msg → Except String (List Msg)
  | [] => .ok []
  | m :: rest =>
    match cleanMsg m with
    | .error e => .error e
    | .ok m2 =>
      match cleanMessages rest with
      | .error e => .error e
      | .ok rest2 => .ok (m2 :: rest2)

/-- The per-episode command batches of the sorted episode list:
`commands.append(parsed_response.commands)` for each episode whose
`response.json` parses. -/
def commandsOfLogs (eps : List EpisodeDir) : List (List String) :=
  (episodeOrder eps).filterMap (fun p => p.2.response.map CmdBatch.commands)

/-- The reconstructed raw message list: the last episode's recorded
`debug.json` input (empty when missing or malformed), plus a synthetic
assistant turn carrying the last episode's response with
`is_task_complete` forced to `False` (appended only when that response
parses). -/
def rawMessages (last : Int × EpisodeDir) : List Msg :=
  match last.2.response with
  | none => last.2.debugInput.getD []
  | some r => last.2.debugInput.getD [] ++
      [⟨"assistant", .scalar (serializeBatch { r with isTaskComplete := false })⟩]

/-- `_read_trajectories` after `agent-logs` has been found: sort the
well-formed episode directories, collect their command batches, take
`episode_dirs[-1]` — an `IndexError` when the list is empty — and build
and clean the message history. -/
def readFromLogs (eps : List EpisodeDir) :
    Except String (List (List String) × List Msg × Nat) :=
  match (episodeOrder eps).getLast? with
  | none => .error "IndexError: episode_dirs[-1]"
  | some last =>
    match cleanMessages (rawMessages last) with
    | .error e => .error e
    | .ok msgs => .ok (commandsOfLogs eps, msgs, (episodeOrder eps).length)

/-- `_read_trajectories` after the trajectory folder has been found:
`([], [], 0)` when `agent-logs` is absent. -/
def readFromFolder (tf : TrajSub) :
    Except String (List (List String) × List Msg × Nat) :=
  match tf.agentLogs with
  | none => .ok ([], [], 0)
  | some eps => readFromLogs eps

/-- `_read_trajectories`: locate the trajectory folder by task hash and
reconstruct the replay inputs.  (The `logging_dir` copy of `agent-logs`
is an external filesystem side effect and is not modelled.) -/
def read_trajectories (basePath : List TrajTop) (task_description : String) :
    Except String (List (List String) × List Msg × Nat) :=
  match find_trajectory_folder basePath (create_task_hash task_description) with
  | none => .ok ([], [], 0)
  | some tf => readFromFolder tf

/-- The command batches discoverable for a task (what `perform_task`
would replay). -/
def discoveredCommands (basePath : List TrajTop) (instruction : String) :
    List (List String) :=
  match find_trajectory_folder basePath (create_task_hash instruction) with
  | none => []
  | some tf =>
    match tf.agentLogs with
    | none => []
    | some eps => commandsOfLogs eps

/-- `perform_task` up to the point where the reconstructed replay is
handed to the live session: reads the trajectories (propagating their
errors) and raises `No commands found for task` on an empty command
list; the subsequent `_replay_tasks` and agent loop interact with the
external terminal session and language model and are outside the
embedding, so success returns the reconstructed inputs. -/
def perform_task (basePath : List TrajTop) (instruction : String) :
    Except String (List (List String) × List Msg × Nat) :=
  match read_trajectories basePath instruction with
  | .error e => .error e
  | .ok (commands, messages, n) =>
    if commands.length = 0 then .error "No commands found for task"
    else .ok (commands, messages, n)

/-! ## Claim C6: episode ordering -/

theorem stableInsert_perm (a : Int × EpisodeDir) :
    ∀ l : List (Int × EpisodeDir), (stableInsert a l).Perm (a :: l) := by
  intro l
  induction l with
  | nil => exact List.Perm.refl _
  | cons b t ih =>
    unfold stableInsert
    by_cases h : a.1 < b.1
    · rw [if_pos h]
    · rw [if_neg h]
      exact (List.Perm.cons b ih).trans (List.Perm.swap a b t)

theorem pyStableSort_fold_perm :
    ∀ (l acc : List (Int × EpisodeDir)),
    (l.foldl (fun acc x => stableInsert x acc) acc).Perm (acc ++ l) := by
  intro l
  induction l with
  | nil => intro acc; simp
  | cons x t ih =>
    intro acc
    rw [List.foldl_cons]
    refine (ih (stableInsert x acc)).trans ?_
    have h1 : (stableInsert x acc ++ t).Perm ((x :: acc) ++ t) :=
      (stableInsert_perm x acc).append_right t
    refine h1.trans ?_
    show (x :: (acc ++ t)).Perm (acc ++ x :: t)
    exact List.perm_middle.symm

theorem pyStableSort_perm (l : List (Int × EpisodeDir)) :
    (pyStableSort l).Perm l := by
  have := pyStableSort_fold_perm l []
  simpa using this

theorem stableInsert_sorted (a : Int × EpisodeDir) :
    ∀ {l : List (Int × EpisodeDir)},
    l.Pairwise (fun x y => x.1 ≤ y.1) →
    (stableInsert a l).Pairwise (fun x y => x.1 ≤ y.1) := by
  intro l
  induction l with
  | nil => intro _; simp [stableInsert]
  | cons b t ih =>
    intro hp
    rcases List.pairwise_cons.mp hp with ⟨hb, ht⟩
    unfold stableInsert
    by_cases h : a.1 < b.1
    · rw [if_pos h]
      apply List.pairwise_cons.mpr
      refine ⟨?_, hp⟩
      intro y hy
      rw [List.mem_cons] at hy
      rcases hy with hy | hy
      · rw [hy]
        omega
      · have := hb y hy
        omega
    · rw [if_neg h]
      apply List.pairwise_cons.mpr
      refine ⟨?_, ih ht⟩
      intro y hy
      have hy' : y ∈ a :: t := (stableInsert_perm a t).mem_iff.mp hy
      rw [List.mem_cons] at hy'
      rcases hy' with hy' | hy'
      · rw [hy']
        omega
      · exact hb y hy'

theorem pyStableSort_sorted (l : List (Int × EpisodeDir)) :
    (pyStableSort l).Pairwise (fun x y => x.1 ≤ y.1) := by
  have hgen : ∀ (l acc : List (Int × EpisodeDir)),
      acc.Pairwise (fun x y => x.1 ≤ y.1) →
      (l.foldl (fun acc x => stableInsert x acc) acc).Pairwise
        (fun x y => x.1 ≤ y.1) := by
    intro l
    induction l with
    | nil => intro acc h; exact h
    | cons x t ih =>
      intro acc h
      rw [List.foldl_cons]
      exact ih (stableInsert x acc) (stableInsert_sorted x h)
  exact hgen l [] (by simp)

/-- Claim C6: replay reconstruction orders the well-formed
`episode-<N>` directories by the numeric value of `N` ascending and
keeps exactly the well-formed ones (unparseable suffixes excluded); in
particular `episode-2, episode-10, episode-1` discovered in that
filesystem order are reconstructed as
`episode-1, episode-2, episode-10`, and an `episode-abc` entry is
dropped. -/
theorem episodeOrder_spec (eps : List EpisodeDir) :
    (episodeOrder eps).Pairwise (fun x y => x.1 ≤ y.1) ∧
    (episodeOrder eps).Perm (wfEpisodes eps) ∧
    (episodeOrder
      [⟨"episode-2", true, none, none⟩, ⟨"episode-10", true, none, none⟩,
       ⟨"episode-1", true, none, none⟩]).map (fun p => p.2.name) =
      ["episode-1", "episode-2", "episode-10"] ∧
    (episodeOrder
      [⟨"episode-2", true, none, none⟩, ⟨"episode-abc", true, none, none⟩,
       ⟨"episode-1", true, none, none⟩]).map (fun p => p.2.name) =
      ["episode-1", "episode-2"] :=
  ⟨pyStableSort_sorted _, pyStableSort_perm _, by decide, by decide⟩

/-! ## Claims C7 and C10: failure on zero discoverable episodes -/

theorem cleanMsg_error_shape {m : Msg} {e : String} (h : cleanMsg m = .error e) :
    e = "IndexError: message content[0]" ∨ e = "KeyError: text" := by
  unfold cleanMsg at h
  cases hc : m.content with
  | scalar s => rw [hc] at h; cases h
  | parts l =>
    rw [hc] at h
    cases l with
    | nil =>
      injection h with h'
      exact Or.inl h'.symm
    | cons p rest =>
      replace h : (match p.textF with
        | none => Except.error "KeyError: text"
        | some t =>
          Except.ok ({ role := m.role, content := MsgContent.scalar t } : Msg)) =
          Except.error e := h
      cases hp : p.textF with
      | none =>
        rw [hp] at h
        injection h with h'
        exact Or.inr h'.symm
      | some t => rw [hp] at h; cases h

theorem cleanMessages_error_shape :
    ∀ {l : List Msg} {e : String}, cleanMessages l = .error e →
    e = "IndexError: message content[0]" ∨ e = "KeyError: text" := by
  intro l
  induction l with
  | nil => intro e h; cases h
  | cons m rest ih =>
    intro e h
    unfold cleanMessages at h
    cases hm : cleanMsg m with
    | error e2 =>
      rw [hm] at h
      injection h with h'
      exact h' ▸ cleanMsg_error_shape hm
    | ok m2 =>
      rw [hm] at h
      cases h2 : cleanMessages rest with
      | error e2 =>
        rw [h2] at h
        injection h with h'
        exact h' ▸ ih h2
      | ok rest2 => rw [h2] at h; cases h

/-- Claim C10: with a trajectory folder and its `agent-logs` directory
both present, `_read_trajectories` raises the `episode_dirs[-1]`
out-of-bounds error exactly when there is no well-formed
`episode-<N>` subdirectory: the `[-1]` indexing is in bounds only under
the precondition that at least one well-formed episode directory
exists. -/
theorem read_trajectories_index_bound (basePath : List TrajTop)
    (instr : String) (tf : TrajSub) (eps : List EpisodeDir)
    (hfind : find_trajectory_folder basePath (create_task_hash instr) = some tf)
    (hlogs : tf.agentLogs = some eps) :
    (read_trajectories basePath instr = .error "IndexError: episode_dirs[-1]" ↔
      wfEpisodes eps = []) := by
  have hr : read_trajectories basePath instr = readFromLogs eps := by
    unfold read_trajectories
    rw [hfind]
    show readFromFolder tf = _
    unfold readFromFolder
    rw [hlogs]
  rw [hr]
  constructor
  · intro he
    by_contra hne
    have hperm := pyStableSort_perm (wfEpisodes eps)
    have hord : episodeOrder eps ≠ [] := by
      intro h0
      apply hne
      apply List.eq_nil_of_length_eq_zero
      have hlen := hperm.length_eq
      rw [show pyStableSort (wfEpisodes eps) = episodeOrder eps from rfl, h0]
        at hlen
      exact hlen.symm
    rcases Option.isSome_iff_exists.mp (List.getLast?_isSome.mpr hord)
      with ⟨last, hlast⟩
    unfold readFromLogs at he
    rw [hlast] at he
    replace he : (match cleanMessages (rawMessages last) with
      | Except.error e => Except.error e
      | Except.ok msgs =>
        Except.ok (commandsOfLogs eps, msgs, (episodeOrder eps).length)) =
        Except.error "IndexError: episode_dirs[-1]" := he
    cases hc : cleanMessages (rawMessages last) with
    | error e2 =>
      rw [hc] at he
      injection he with h'
      rcases cleanMsg_fix : cleanMessages_error_shape hc with h1 | h1 <;>
        rw [h1] at h' <;> exact absurd h'.symm (by decide)
    | ok msgs =>
      rw [hc] at he
      cases he
  · intro hwf
    unfold readFromLogs
    have h0 : episodeOrder eps = [] := by
      unfold episodeOrder
      rw [hwf]
      rfl
    rw [h0]
    rfl

/-- Witness trajectory root for C10: the folder and `agent-logs` exist
but `agent-logs` is empty. -/
def c10Root : List TrajTop :=
  [⟨create_task_hash "t" ++ "-task", true, [⟨"task.1-of-1", true, some []⟩]⟩]

/-- Witness for C10: on `c10Root` the reconstruction hits the
out-of-bounds access. -/
theorem read_trajectories_index_bound_witness :
    read_trajectories c10Root "t" = .error "IndexError: episode_dirs[-1]" :=
  (read_trajectories_index_bound c10Root "t"
    ⟨"task.1-of-1", true, some []⟩ [] (by decide) rfl).mpr rfl

/-- Claim C7: whenever a task has zero discoverable episodes — no
matching hash-prefixed trajectory folder, no `agent-logs` directory, or
no command batches — `perform_task` signals a failure to the caller
rather than completing successfully with an empty replay. -/
theorem perform_task_fails_on_zero_episodes (basePath : List TrajTop)
    (instr : String)
    (h : find_trajectory_folder basePath (create_task_hash instr) = none ∨
      (∃ tf, find_trajectory_folder basePath (create_task_hash instr) = some tf ∧
        tf.agentLogs = none) ∨
      discoveredCommands basePath instr = []) :
    ∃ e, perform_task basePath instr = Except.error e := by
  rcases h with h | ⟨tf, htf, hlogs⟩ | h
  · have hr : read_trajectories basePath instr = .ok ([], [], 0) := by
      unfold read_trajectories
      rw [h]
    refine ⟨"No commands found for task", ?_⟩
    unfold perform_task
    rw [hr]
    rfl
  · have hr : read_trajectories basePath instr = .ok ([], [], 0) := by
      unfold read_trajectories
      rw [htf]
      show readFromFolder tf = _
      unfold readFromFolder
      rw [hlogs]
    refine ⟨"No commands found for task", ?_⟩
    unfold perform_task
    rw [hr]
    rfl
  · cases hfind : find_trajectory_folder basePath (create_task_hash instr) with
    | none =>
      have hr : read_trajectories basePath instr = .ok ([], [], 0) := by
        unfold read_trajectories
        rw [hfind]
      refine ⟨"No commands found for task", ?_⟩
      unfold perform_task
      rw [hr]
      rfl
    | some tf =>
      cases hlogs : tf.agentLogs with
      | none =>
        have hr : read_trajectories basePath instr = .ok ([], [], 0) := by
          unfold read_trajectories
          rw [hfind]
          show readFromFolder tf = _
          unfold readFromFolder
          rw [hlogs]
        refine ⟨"No commands found for task", ?_⟩
        unfold perform_task
        rw [hr]
        rfl
      | some eps =>
        have hco : commandsOfLogs eps = [] := by
          have hd : discoveredCommands basePath instr = commandsOfLogs eps := by
            unfold discoveredCommands
            rw [hfind]
            show (match tf.agentLogs with
              | none => []
              | some eps => commandsOfLogs eps) = commandsOfLogs eps
            rw [hlogs]
          rw [← hd]
          exact h
        have hr : read_trajectories basePath instr = readFromLogs eps := by
          unfold read_trajectories
          rw [hfind]
          show readFromFolder tf = _
          unfold readFromFolder
          rw [hlogs]
        unfold perform_task
        rw [hr]
        cases hlast : (episodeOrder eps).getLast? with
        | none =>
          have hrl : readFromLogs eps = .error "IndexError: episode_dirs[-1]" := by
            unfold readFromLogs
            rw [hlast]
          rw [hrl]
          exact ⟨"IndexError: episode_dirs[-1]", rfl⟩
        | some last =>
          have hrl : readFromLogs eps =
              (match cleanMessages (rawMessages last) with
              | Except.error e => Except.error e
              | Except.ok msgs =>
                Except.ok (commandsOfLogs eps, msgs, (episodeOrder eps).length)) := by
            unfold readFromLogs
            rw [hlast]
          rw [hrl]
          cases hc : cleanMessages (rawMessages last) with
          | error e2 =>
            exact ⟨e2, rfl⟩
          | ok msgs =>
            rw [hco]
            exact ⟨"No commands found for task", rfl⟩

/-- Witness for C7: an empty trajectory root has no matching folder, so
`perform_task` fails. -/
theorem perform_task_fails_on_zero_episodes_witness :
    ∃ e, perform_task ([] : List TrajTop) "t" = Except.error e :=
  perform_task_fails_on_zero_episodes [] "t" (Or.inl rfl)
